import Mathlib

/-
  Verification development for the Smart Exam Seating System core
  (src/script.js).

  The solver `tryArrange` and the labeler `assignRollsToGrid` are embedded
  as pure Lean functions.  The only impure ingredient of the source is
  `Math.random`, which is consulted in `dfs` to (possibly) reorder the
  candidate list; we model it by an oracle `R : Nat → List Dept → List Dept`
  indexed by the value of the attempt counter (which is distinct at every
  consultation point).  JavaScript's `Array.prototype.sort`, even with a
  random comparator, always returns a permutation of its input, so the
  faithful abstraction of the randomization is the hypothesis
  `∀ n l, (R n l).Perm l`.

  JavaScript objects are embedded as association lists with distinct keys,
  in insertion order; numeric entry values are `Int` (the UI always supplies
  non-negative integers, but `tryArrange` itself would also accept negative
  entries, and one claim is about exactly that case).
-/

set_option maxHeartbeats 4000000

namespace Seating

/-- Departments (categories) are plain strings, as in the source. -/
abbrev Dept := String

/-- A category grid: each cell holds a department or null (`none`). -/
abbrev CGrid := List (List (Option Dept))

/-- Embeds `neighbors(r,c,rows,cols)` from src/script.js: the in-bounds
up/down/left/right neighbors, no diagonals, no wraparound. -/
def neighbors (r c rows cols : Nat) : List (Nat × Nat) :=
  (if 0 < r then [(r - 1, c)] else []) ++
  (if r < rows - 1 then [(r + 1, c)] else []) ++
  (if 0 < c then [(r, c - 1)] else []) ++
  (if c < cols - 1 then [(r, c + 1)] else [])

/-- Reading `grid[r][c]` (always used in bounds by the source). -/
def getCell (g : CGrid) (r c : Nat) : Option Dept :=
  (g.getD r []).getD c none

/-- Writing `grid[r][c] = v` (always used in bounds by the source). -/
def setCell (g : CGrid) (r c : Nat) (v : Option Dept) : CGrid :=
  g.set r ((g.getD r []).set c v)

/-- Embeds `canPlace(r,c,dept)`: no in-bounds orthogonal neighbor already
holds `d`. -/
def canPlace (g : CGrid) (rows cols r c : Nat) (d : Dept) : Bool :=
  (neighbors r c rows cols).all fun p => !(getCell g p.1 p.2 == some d)

/-- Reading `m[d]` on a JS object embedded as an association list
(0 if absent; `tryArrange` only reads present keys). -/
def lookupD (m : List (Dept × Int)) (d : Dept) : Int :=
  match m.find? (fun p => p.1 == d) with
  | some p => p.2
  | none => 0

/-- `m[d] += δ` on a JS object: only the entry with key `d` changes. -/
def bump (m : List (Dept × Int)) (d : Dept) (δ : Int) : List (Dept × Int) :=
  m.map fun p => if p.1 == d then (p.1, p.2 + δ) else p

/-- Stable insertion of `d` into a list already sorted by descending `key`:
`d` goes in front of the first element whose key is ≤ its own, so elements
with equal keys keep their original relative order. -/
def insSorted (key : Dept → Int) (d : Dept) : List Dept → List Dept
  | [] => [d]
  | e :: es => if key e ≤ key d then d :: e :: es else e :: insSorted key d es

/-- Embeds `cand.sort((a,b) => countsLeft[b] - countsLeft[a])`: a stable sort
by descending key, as guaranteed for `Array.prototype.sort` with a
consistent comparator. -/
def sortByDesc (key : Dept → Int) (l : List Dept) : List Dept :=
  l.foldr (insSorted key) []

/-- The mutable search state of `tryArrange`: the partially filled grid, the
`countsLeft` object and the `attempts` counter. -/
structure SState where
  grid : CGrid
  countsLeft : List (Dept × Int)
  attempts : Nat
deriving Repr

/-- The candidate loop `for (const d of cand) ...` inside `dfs`: try each
candidate in order; on a successful recursive call propagate success, else
revert the placement (`grid[r][c] = null; countsLeft[d]++`) and continue. -/
def tryCands (next : SState → Bool × SState) (r c : Nat) (rows cols : Nat) :
    List Dept → SState → Bool × SState
  | [], st => (false, st)
  | d :: ds, st =>
    if canPlace st.grid rows cols r c d then
      let st1 : SState :=
        { st with grid := setCell st.grid r c (some d),
                  countsLeft := bump st.countsLeft d (-1) }
      let res := next st1
      if res.1 then (true, res.2)
      else
        tryCands next r c rows cols ds
          { res.2 with grid := setCell res.2.grid r c none,
                       countsLeft := bump res.2.countsLeft d 1 }
    else
      tryCands next r c rows cols ds st

/-- Embeds `dfs(idx)`.  The remaining cells to fill (the suffix of `cells`
from `idx` on) are passed as a list.  Following the source: first
`++attempts` and the limit check, then the completion check, then the
candidate list (positive remaining count, stably sorted by descending
remaining count, then possibly reordered by the randomization, modeled by
the oracle `R` applied at the current counter value). -/
def dfs (R : Nat → List Dept → List Dept) (rows cols attemptLimit : Nat) :
    List (Nat × Nat) → SState → Bool × SState
  | [], st =>
    let st1 : SState := { st with attempts := st.attempts + 1 }
    if attemptLimit < st1.attempts then (false, st1) else (true, st1)
  | (r, c) :: rest, st =>
    let st1 : SState := { st with attempts := st.attempts + 1 }
    if attemptLimit < st1.attempts then (false, st1)
    else
      let cand0 := (st1.countsLeft.filter fun p => 0 < p.2).map Prod.fst
      let cand1 := sortByDesc (lookupD st1.countsLeft) cand0
      let cand := R st1.attempts cand1
      tryCands (dfs R rows cols attemptLimit rest) r c rows cols cand st1

/-- The multiset of department tokens `pool` built by `tryArrange` (one
token per unit of a strictly positive count).  The source shuffles it and
then only uses its length. -/
def poolOf (countsMap : List (Dept × Int)) : List Dept :=
  (countsMap.filter fun p => 0 < p.2).flatMap fun p => List.replicate p.2.toNat p.1

/-- The fixed row-major cell visitation order built by `tryArrange`. -/
def cellsOf (rows cols : Nat) : List (Nat × Nat) :=
  (List.range rows).flatMap fun r => (List.range cols).map fun c => (r, c)

/-- Embeds `tryArrange(rows, cols, countsMap, attemptLimit)`, additionally
exposing the final value of the internal `attempts` counter (0 when the
quick length check fails, since `dfs` is then never entered). -/
def tryArrangeSt (R : Nat → List Dept → List Dept) (rows cols : Nat)
    (countsMap : List (Dept × Int)) (attemptLimit : Nat) : Option CGrid × Nat :=
  let total := rows * cols
  let pool := poolOf countsMap
  if pool.length ≠ total then (none, 0)
  else
    let grid : CGrid := List.replicate rows (List.replicate cols none)
    let st0 : SState := ⟨grid, countsMap, 0⟩
    let res := dfs R rows cols attemptLimit (cellsOf rows cols) st0
    (if res.1 then some res.2.grid else none, res.2.attempts)

/-- `tryArrange` as seen by its caller: the grid, or null. -/
def tryArrange (R : Nat → List Dept → List Dept) (rows cols : Nat)
    (countsMap : List (Dept × Int)) (attemptLimit : Nat := 20000) : Option CGrid :=
  (tryArrangeSt R rows cols countsMap attemptLimit).1

/-- The identity oracle: the concrete run in which the 30%-probability
shuffle never fires (every candidate list is left in its sorted order). -/
def Rid : Nat → List Dept → List Dept := fun _ l => l

/-- The grid is a `rows × cols` rectangle. -/
def Shaped (rows cols : Nat) (g : CGrid) : Prop :=
  g.length = rows ∧ ∀ row ∈ g, row.length = cols

/-- No two adjacent assigned cells hold the same department. -/
def SafeGrid (rows cols : Nat) (g : CGrid) : Prop :=
  ∀ r c, r < rows → c < cols → ∀ p ∈ neighbors r c rows cols,
    getCell g r c ≠ none → getCell g r c ≠ getCell g p.1 p.2

/-- Every in-bounds cell is assigned. -/
def FullGrid (rows cols : Nat) (g : CGrid) : Prop :=
  ∀ r c, r < rows → c < cols → getCell g r c ≠ none

/-- Number of cells of the grid holding department `d`. -/
def countGridI (g : CGrid) (d : Dept) : Nat :=
  (g.map fun row => row.countP fun x => x == some d).sum

/-- Accounting potential for the attempt counter: with limit `B` and at most
`C` candidates per cell, a search entered at counter value `a` can consume at
most `searchBudget B C a` total counter value. -/
def searchBudget (B C a : Nat) : Nat :=
  a + (B + 1 - a) * (C + 1)

/- ## The Label Assignor -/

/-- A seat as produced by `assignRollsToGrid`: the raw cell value (stored
unchecked by the source, so a null cell yields `dept = none`) and the roll
string. -/
structure Seat where
  dept : Option Dept
  roll : String
deriving Repr, DecidableEq

/-- JS property-key coercion performed by `counters[d]`: the value `null`
becomes the string key "null". -/
def deptKey : Option Dept → String
  | some s => s
  | none => "null"

/-- Decimal digits of `n`, most significant first; fuel-structured so it
evaluates in the kernel.  `decDigitsCore f n` is correct whenever `n ≤ f`. -/
def decDigitsCore : Nat → Nat → List Char
  | 0, _ => []
  | fuel + 1, n =>
    if n = 0 then []
    else decDigitsCore fuel (n / 10) ++ [Nat.digitChar (n % 10)]

/-- JS `String(n)` for a natural number: decimal, no leading zeros. -/
def natToDec (n : Nat) : String :=
  if n = 0 then "0" else ⟨decDigitsCore n n⟩

/-- JS `s.padStart(3, "0")`. -/
def padStart3 (s : String) : String :=
  ⟨List.replicate (3 - s.length) '0' ++ s.data⟩

/-- The roll string `k ++ "-" ++ (counter zero-padded to 3 digits)`. -/
def rollStr (k : String) (n : Nat) : String :=
  k ++ "-" ++ padStart3 (natToDec n)

/-- Reading `counters[k] || 0`. -/
def getCounter (cs : List (String × Nat)) (k : String) : Nat :=
  match cs.find? fun p => p.1 == k with
  | some p => p.2
  | none => 0

/-- `counters[k] = (counters[k] || 0) + 1` on a JS object: update in place
when the key is present, else append a new entry. -/
def bumpCounter (cs : List (String × Nat)) (k : String) : List (String × Nat) :=
  if cs.any fun p => p.1 == k then
    cs.map fun p => if p.1 == k then (p.1, p.2 + 1) else p
  else cs ++ [(k, 1)]

/-- One pass over a list of cells, threading the counters object: for each
cell increment its key's counter and emit the seat with the fresh counter
value.  This is the loop body of `assignRollsToGrid`. -/
def assignCells (cs : List (String × Nat)) :
    List (Option Dept) → List Seat × List (String × Nat)
  | [] => ([], cs)
  | d :: ds =>
    let k := deptKey d
    let cs1 := bumpCounter cs k
    let seat : Seat := ⟨d, rollStr k (getCounter cs1 k)⟩
    let res := assignCells cs1 ds
    (seat :: res.1, res.2)

/-- The cells `grid[r][0] .. grid[r][cols-1]` of one row (solver grids are
rectangular, so for them this is the row itself). -/
def padTo (cols : Nat) (row : List (Option Dept)) : List (Option Dept) :=
  row.take cols ++ List.replicate (cols - row.length) none

/-- The row loop of `assignRollsToGrid`, counters shared across rows. -/
def assignRows (cols : Nat) (cs : List (String × Nat)) :
    List (List (Option Dept)) → List (List Seat) × List (String × Nat)
  | [] => ([], cs)
  | row :: rest =>
    let res1 := assignCells cs (padTo cols row)
    let res2 := assignRows cols res1.2 rest
    (res1.1 :: res2.1, res2.2)

/-- Embeds `assignRollsToGrid(grid)`: `rows = grid.length`,
`cols = grid[0].length` (on an empty grid the source throws a TypeError
reading `.length` of `undefined`, modeled as `none`), then the double loop in
row-major order with per-key counters. -/
def assignRollsToGrid (grid : CGrid) : Option (List (List Seat)) :=
  match grid with
  | [] => none
  | g0 :: _ => some (assignRows g0.length [] grid).1

/-- Reading a seat of the produced grid. -/
def getSeat (sg : List (List Seat)) (r c : Nat) : Seat :=
  (sg.getD r []).getD c ⟨none, ""⟩

/-- Number of cells in `l` whose counter key is `k`. -/
def occK (k : String) (l : List (Option Dept)) : Nat :=
  l.countP fun x => deptKey x == k

/-- Reference description of one labeling pass: the seat of each cell holds
the cell value and the roll built from the 1-based count of its key among
the cells seen so far (`seen`) plus itself. -/
def seatsSpec (seen : List (Option Dept)) : List (Option Dept) → List Seat
  | [] => []
  | d :: ds =>
    ⟨d, rollStr (deptKey d) (occK (deptKey d) seen + 1)⟩ :: seatsSpec (seen ++ [d]) ds

/-- Reference description of the whole grid labeling, row by row. -/
def chunkSpec (seen : List (Option Dept)) :
    List (List (Option Dept)) → List (List Seat)
  | [] => []
  | row :: rest => seatsSpec seen row :: chunkSpec (seen ++ row) rest

/-- Decimal value of a digit string (leading zeros are immaterial). -/
def decVal (l : List Char) : Nat :=
  l.foldl (fun a c => a * 10 + (c.toNat - 48)) 0

/- ## The caller (attemptAndRender) -/

/-- The outcome of `attemptAndRender` as observed by the user: the
count-mismatch alert, the could-not-arrange alert, or a rendered seat
grid. -/
inductive RenderOutcome where
  | countMismatch : RenderOutcome
  | searchExhausted : RenderOutcome
  | seating : List (List Seat) → RenderOutcome
deriving Repr, DecidableEq

/-- `totalCount`: `Object.values(counts).reduce((a,b) => a+b, 0)`. -/
def totalCount (counts : List (Dept × Int)) : Int :=
  (counts.map fun p => p.2).sum

/-- The retry loop of `attemptAndRender`: up to five independent solver runs
(one randomness oracle per run), stopping at the first success. -/
def runTries (Rs : List (Nat → List Dept → List Dept)) (rows cols : Nat)
    (counts : List (Dept × Int)) : Option CGrid :=
  match Rs with
  | [] => none
  | R :: rest =>
    match tryArrange R rows cols counts 30000 with
    | some g => some g
    | none => runTries rest rows cols counts

/-- Embeds the decision logic of `attemptAndRender`: the caller-side sum
check (with its own alert message), then the solver retry loop with attempt
limit 30000, then labeling and rendering.  `none` models a thrown
TypeError. -/
def attemptAndRender (Rs : List (Nat → List Dept → List Dept)) (rows cols : Nat)
    (counts : List (Dept × Int)) : Option RenderOutcome :=
  if totalCount counts ≠ (rows * cols : Int) then some .countMismatch
  else
    match runTries Rs rows cols counts with
    | none => some .searchExhausted
    | some g => (assignRollsToGrid g).map .seating

/- ## Generic list helpers -/

theorem list_set_self {α : Type _} :
    ∀ (l : List α) (n : Nat) (a : α), l[n]? = some a → l.set n a = l := by
  intro l
  induction l with
  | nil => intro n a h; simp at h
  | cons x xs ih =>
    intro n a h
    cases n with
    | zero => simp_all
    | succ n =>
      simp only [List.getElem?_cons_succ] at h
      show x :: xs.set n a = x :: xs
      rw [ih n a h]

theorem sum_map_add {α : Type _} (l : List α) (f g : α → Nat) :
    (l.map fun x => f x + g x).sum = (l.map f).sum + (l.map g).sum := by
  induction l with
  | nil => simp
  | cons x xs ih => simp [ih]; omega

theorem sum_map_set {α : Type _} :
    ∀ (l : List α) (n : Nat) (b : α) (f : α → Nat) (h : n < l.length),
      ((l.set n b).map f).sum + f (l.get ⟨n, h⟩) = (l.map f).sum + f b := by
  intro l
  induction l with
  | nil => intro n b f h; simp at h
  | cons x xs ih =>
    intro n b f h
    cases n with
    | zero => simp; omega
    | succ n =>
      have hn : n < xs.length := by simpa using h
      have := ih n b f hn
      simp only [List.set_cons_succ, List.map_cons, List.sum_cons, List.get_cons_succ]
      omega

/- ## neighbors -/

theorem mem_neighbors {rows cols r c : Nat} {p : Nat × Nat} :
    p ∈ neighbors r c rows cols ↔
      (0 < r ∧ p = (r - 1, c)) ∨ (r < rows - 1 ∧ p = (r + 1, c)) ∨
        (0 < c ∧ p = (r, c - 1)) ∨ (c < cols - 1 ∧ p = (r, c + 1)) := by
  unfold neighbors
  split_ifs <;>
    simp only [List.mem_append, List.mem_singleton, List.not_mem_nil, or_false,
      false_or] <;>
    tauto

theorem mem_neighbors_bounds {rows cols r c : Nat} {p : Nat × Nat}
    (hr : r < rows) (hc : c < cols) (hp : p ∈ neighbors r c rows cols) :
    p.1 < rows ∧ p.2 < cols := by
  rcases mem_neighbors.mp hp with ⟨h, rfl⟩ | ⟨h, rfl⟩ | ⟨h, rfl⟩ | ⟨h, rfl⟩ <;>
    constructor <;> simp <;> omega

theorem mem_neighbors_ne_self {rows cols r c : Nat} {p : Nat × Nat}
    (hp : p ∈ neighbors r c rows cols) : p ≠ (r, c) := by
  rcases mem_neighbors.mp hp with ⟨h, rfl⟩ | ⟨h, rfl⟩ | ⟨h, rfl⟩ | ⟨h, rfl⟩ <;>
    simp [Prod.ext_iff] <;> omega

theorem mem_neighbors_symm {rows cols r c a b : Nat} (hr : r < rows) (hc : c < cols)
    (h : (a, b) ∈ neighbors r c rows cols) : (r, c) ∈ neighbors a b rows cols := by
  rcases mem_neighbors.mp h with ⟨h1, he⟩ | ⟨h1, he⟩ | ⟨h1, he⟩ | ⟨h1, he⟩ <;>
    rw [Prod.mk.injEq] at he <;> obtain ⟨rfl, rfl⟩ := he
  · exact mem_neighbors.mpr (Or.inr (Or.inl ⟨by omega, by rw [Prod.mk.injEq]; omega⟩))
  · exact mem_neighbors.mpr (Or.inl ⟨by omega, by rw [Prod.mk.injEq]; omega⟩)
  · exact mem_neighbors.mpr (Or.inr (Or.inr (Or.inr ⟨by omega, by rw [Prod.mk.injEq]; omega⟩)))
  · exact mem_neighbors.mpr (Or.inr (Or.inr (Or.inl ⟨by omega, by rw [Prod.mk.injEq]; omega⟩)))

/- ## getCell / setCell -/

theorem getCell_eq_getElem {g : CGrid} {r c : Nat} (_hr : r < g.length)
    (hc : c < (g.getD r []).length) : getCell g r c = (g.getD r [])[c] := by
  unfold getCell
  rw [List.getD_eq_getElem?_getD, List.getElem?_eq_getElem hc]
  rfl

theorem getD_eq_getElem_of_lt {α : Type _} {l : List α} {n : Nat} (h : n < l.length)
    (d : α) : l.getD n d = l[n] := by
  rw [List.getD_eq_getElem?_getD, List.getElem?_eq_getElem h]
  rfl

theorem getD_set_self {α : Type _} (l : List α) (n : Nat) (a d : α)
    (h : n < l.length) : (l.set n a).getD n d = a := by
  rw [List.getD_eq_getElem?_getD, List.getElem?_set_self h]
  rfl

theorem getD_set_ne {α : Type _} (l : List α) {n m : Nat} (a d : α) (h : m ≠ n) :
    (l.set n a).getD m d = l.getD m d := by
  rw [List.getD_eq_getElem?_getD, List.getElem?_set_ne (by omega),
    ← List.getD_eq_getElem?_getD]

theorem getCell_setCell_self {g : CGrid} {r c : Nat} (v : Option Dept)
    (hr : r < g.length) (hc : c < (g.getD r []).length) :
    getCell (setCell g r c v) r c = v := by
  unfold getCell setCell
  rw [getD_set_self _ _ _ _ hr, getD_set_self _ _ _ _ hc]

theorem getCell_setCell_ne (g : CGrid) {r c r' c' : Nat} (v : Option Dept)
    (h : (r', c') ≠ (r, c)) :
    getCell (setCell g r c v) r' c' = getCell g r' c' := by
  unfold getCell setCell
  by_cases hrr : r' = r
  · subst hrr
    have hcc : c' ≠ c := by
      intro hc; exact h (by rw [hc])
    by_cases hr : r' < g.length
    · rw [getD_set_self _ _ _ _ hr, getD_set_ne _ _ _ hcc]
    · rw [List.set_eq_of_length_le (by omega)]
  · rw [getD_set_ne _ _ _ hrr]

theorem setCell_setCell (g : CGrid) (r c : Nat) (v w : Option Dept) :
    setCell (setCell g r c v) r c w = setCell g r c w := by
  unfold setCell
  by_cases hr : r < g.length
  · rw [getD_set_self _ _ _ _ hr, List.set_set, List.set_set]
  · have h1 : g.set r ((g.getD r []).set c v) = g :=
      List.set_eq_of_length_le (by omega)
    rw [h1]

theorem setCell_none_cancel {g : CGrid} {r c : Nat} (h : getCell g r c = none) :
    setCell g r c none = g := by
  unfold setCell
  by_cases hr : r < g.length
  · by_cases hc : c < (g.getD r []).length
    · have hval : (g.getD r [])[c] = none := by
        rw [← getCell_eq_getElem hr hc, h]
      have hrow : (g.getD r []).set c none = g.getD r [] := by
        apply list_set_self
        rw [List.getElem?_eq_getElem hc, hval]
      rw [hrow]
      apply list_set_self
      rw [List.getElem?_eq_getElem hr]
      rw [getD_eq_getElem_of_lt hr]
    · have hrow : (g.getD r []).set c none = g.getD r [] :=
        List.set_eq_of_length_le (by omega)
      rw [hrow]
      apply list_set_self
      rw [List.getElem?_eq_getElem hr]
      rw [getD_eq_getElem_of_lt hr]
  · rw [List.set_eq_of_length_le (by omega)]

theorem length_setCell (g : CGrid) (r c : Nat) (v : Option Dept) :
    (setCell g r c v).length = g.length := by
  simp [setCell]

theorem Shaped.setCell_preserve {rows cols : Nat} {g : CGrid}
    (h : Shaped rows cols g) (r c : Nat) (v : Option Dept) :
    Shaped rows cols (setCell g r c v) := by
  obtain ⟨h1, h2⟩ := h
  by_cases hr : r < g.length
  · constructor
    · simpa [setCell]
    · intro row hrow
      rcases List.mem_or_eq_of_mem_set hrow with hmem | rfl
      · exact h2 _ hmem
      · rw [List.length_set]
        have : g.getD r [] ∈ g := by
          rw [getD_eq_getElem_of_lt hr]
          exact List.getElem_mem hr
        exact h2 _ this
  · unfold setCell
    rw [List.set_eq_of_length_le (by omega)]
    exact ⟨h1, h2⟩

theorem Shaped.row_len {rows cols : Nat} {g : CGrid} (h : Shaped rows cols g)
    {r : Nat} (hr : r < rows) : (g.getD r []).length = cols := by
  have hr' : r < g.length := by rw [h.1]; exact hr
  rw [getD_eq_getElem_of_lt hr']
  exact h.2 _ (List.getElem_mem hr')

theorem shaped_replicate (rows cols : Nat) :
    Shaped rows cols (List.replicate rows (List.replicate cols (none : Option Dept))) := by
  constructor
  · simp
  · intro row hrow
    rw [List.eq_of_mem_replicate hrow]
    simp

theorem getCell_replicate (rows cols r c : Nat) :
    getCell (List.replicate rows (List.replicate cols (none : Option Dept))) r c = none := by
  unfold getCell
  by_cases hr : r < rows
  · have h1 : (List.replicate rows (List.replicate cols (none : Option Dept))).getD r []
        = List.replicate cols none := by
      rw [getD_eq_getElem_of_lt (by simpa using hr)]
      simp
    rw [h1]
    by_cases hc : c < cols
    · rw [getD_eq_getElem_of_lt (by simpa using hc)]
      simp
    · rw [List.getD_eq_getElem?_getD, List.getElem?_replicate]
      simp [hc]
  · have h1 : (List.replicate rows (List.replicate cols (none : Option Dept))).getD r []
        = [] := by
      rw [List.getD_eq_getElem?_getD, List.getElem?_replicate]
      simp [hr]
    rw [h1]
    simp

/- ## countGridI -/

theorem countGridI_nil (d : Dept) : countGridI [] d = 0 := rfl

theorem countGridI_cons (row : List (Option Dept)) (g : CGrid) (d : Dept) :
    countGridI (row :: g) d = (row.countP fun x => x == some d) + countGridI g d := by
  simp [countGridI]

theorem countGridI_replicate (rows cols : Nat) (d : Dept) :
    countGridI (List.replicate rows (List.replicate cols none)) d = 0 := by
  induction rows with
  | zero => rfl
  | succ n ih =>
    rw [List.replicate_succ, countGridI_cons, ih]
    have : ((List.replicate cols (none : Option Dept)).countP fun x => x == some d) = 0 :=
      List.countP_eq_zero.mpr (by
        intro a ha
        rw [List.eq_of_mem_replicate ha]
        simp)
    omega

theorem countGridI_eq_flatten (g : CGrid) (d : Dept) :
    countGridI g d = g.flatten.countP fun x => x == some d := by
  induction g with
  | nil => rfl
  | cons row rest ih =>
    rw [countGridI_cons, List.flatten_cons, List.countP_append, ih]

theorem countGridI_setCell {g : CGrid} {r c : Nat} {d : Dept}
    (hr : r < g.length) (hc : c < (g.getD r []).length)
    (hnone : getCell g r c = none) (x : Dept) :
    countGridI (setCell g r c (some d)) x
      = countGridI g x + if x = d then 1 else 0 := by
  have hcell : (g.getD r [])[c] = none := by
    rw [← getCell_eq_getElem hr hc, hnone]
  have hrowget : g.get ⟨r, hr⟩ = g.getD r [] := (getD_eq_getElem_of_lt hr []).symm
  have hmain := sum_map_set g r ((g.getD r []).set c (some d))
    (fun row => row.countP fun y => y == some x) hr
  have hcount := List.countP_set (fun y => y == some x) (g.getD r []) c (some d) hc
  rw [hcell] at hcount
  simp only [hrowget] at hmain
  unfold countGridI setCell
  have hite : ((if ((none : Option Dept) == some x) = true then 1 else 0) : Nat) = 0 := by
    simp
  rw [hite] at hcount
  have hite2 : ((if ((some d : Option Dept) == some x) = true then 1 else 0) : Nat)
      = if x = d then 1 else 0 := by
    by_cases h : x = d <;> simp [h]
    intro h2
    exact h h2.symm
  rw [hcount, hite2] at hmain
  omega

/- ## lookupD / bump -/

theorem lookupD_cons {p : Dept × Int} {t : List (Dept × Int)} {x : Dept} :
    lookupD (p :: t) x = if p.1 = x then p.2 else lookupD t x := by
  unfold lookupD
  by_cases h : p.1 = x
  · rw [List.find?_cons_of_pos _ (by simp [h]), if_pos h]
  · rw [List.find?_cons_of_neg _ (by simp [h]), if_neg h]

theorem bump_cons {p : Dept × Int} {t : List (Dept × Int)} {x : Dept} {δ : Int} :
    bump (p :: t) x δ = (if p.1 = x then (p.1, p.2 + δ) else p) :: bump t x δ := by
  unfold bump
  rw [List.map_cons]
  congr 1
  by_cases h : p.1 = x <;> simp [h]

theorem map_fst_bump (m : List (Dept × Int)) (d : Dept) (δ : Int) :
    (bump m d δ).map Prod.fst = m.map Prod.fst := by
  induction m with
  | nil => rfl
  | cons p t ih =>
    rw [bump_cons, List.map_cons, List.map_cons, ih]
    congr 1
    by_cases h : p.1 = d <;> simp [h]

theorem lookupD_bump_ne {m : List (Dept × Int)} {d x : Dept} {δ : Int} (h : x ≠ d) :
    lookupD (bump m d δ) x = lookupD m x := by
  induction m with
  | nil => rfl
  | cons p t ih =>
    rw [bump_cons, lookupD_cons, lookupD_cons, ih]
    by_cases hp : p.1 = d
    · rw [if_pos hp]
      have : p.1 ≠ x := by rw [hp]; exact fun he => h he.symm
      rw [if_neg this, if_neg this]
    · rw [if_neg hp]

theorem lookupD_bump_self {m : List (Dept × Int)} {d : Dept} {δ : Int}
    (h : d ∈ m.map Prod.fst) : lookupD (bump m d δ) d = lookupD m d + δ := by
  induction m with
  | nil => simp at h
  | cons p t ih =>
    by_cases hp : p.1 = d
    · rw [bump_cons, if_pos hp, lookupD_cons, lookupD_cons]
      simp [hp]
    · rw [bump_cons, if_neg hp, lookupD_cons, lookupD_cons, if_neg hp, if_neg hp]
      apply ih
      rw [List.map_cons] at h
      rcases List.mem_cons.mp h with he | ht
      · exact absurd he.symm hp
      · exact ht

theorem lookupD_eq_zero_of_not_mem {m : List (Dept × Int)} {x : Dept}
    (h : x ∉ m.map Prod.fst) : lookupD m x = 0 := by
  induction m with
  | nil => rfl
  | cons p t ih =>
    rw [lookupD_cons]
    have h1 : p.1 ≠ x := fun he => h (by simp [he])
    rw [if_neg h1]
    exact ih fun ht => h (by simp [ht])

theorem mem_keys_of_lookupD_pos {m : List (Dept × Int)} {x : Dept}
    (h : 0 < lookupD m x) : x ∈ m.map Prod.fst := by
  by_contra hc
  rw [lookupD_eq_zero_of_not_mem hc] at h
  omega

theorem bump_bump_cancel (m : List (Dept × Int)) (d : Dept) :
    bump (bump m d (-1)) d 1 = m := by
  induction m with
  | nil => rfl
  | cons p t ih =>
    rw [bump_cons, bump_cons, ih]
    congr 1
    by_cases h : p.1 = d
    · rw [if_pos h]
      simp only [if_pos h]
      obtain ⟨a, b⟩ := p
      simp only [Prod.mk.injEq, true_and]
      omega
    · rw [if_neg h, if_neg h]

theorem lookupD_pos_of_mem_posKeys {m : List (Dept × Int)}
    (hnod : (m.map Prod.fst).Nodup) {d : Dept}
    (h : d ∈ (m.filter fun p => 0 < p.2).map Prod.fst) : 0 < lookupD m d := by
  induction m with
  | nil => simp [poolOf] at h
  | cons p t ih =>
    rw [List.map_cons, List.nodup_cons] at hnod
    rw [lookupD_cons]
    rcases List.mem_map.mp h with ⟨q, hq, rfl⟩
    rcases List.mem_filter.mp hq with ⟨hqmem, hqpos⟩
    rcases List.mem_cons.mp hqmem with rfl | hqt
    · rw [if_pos rfl]
      simpa using hqpos
    · have hne : p.1 ≠ q.1 := by
        intro he
        exact hnod.1 (he ▸ List.mem_map_of_mem Prod.fst hqt)
      rw [if_neg hne]
      exact ih hnod.2 (List.mem_map_of_mem _ (List.mem_filter.mpr ⟨hqt, hqpos⟩))

/- ## Sorting and permutations -/

theorem insSorted_perm (key : Dept → Int) (d : Dept) :
    ∀ l : List Dept, (insSorted key d l).Perm (d :: l)
  | [] => .refl _
  | e :: es => by
    unfold insSorted
    split
    · exact .refl _
    · exact ((insSorted_perm key d es).cons e).trans (List.Perm.swap d e es)

theorem sortByDesc_perm (key : Dept → Int) : ∀ l : List Dept, (sortByDesc key l).Perm l
  | [] => .refl _
  | x :: xs =>
    (insSorted_perm key x (sortByDesc key xs)).trans ((sortByDesc_perm key xs).cons x)

theorem perm_two {α : Type _} {x y : α} {l : List α} (h : l.Perm [x, y]) :
    l = [x, y] ∨ l = [y, x] := by
  have hl : l.length = 2 := by simpa using h.length_eq
  rcases List.length_eq_two.mp hl with ⟨a, b, rfl⟩
  have ha : a ∈ [x, y] := h.subset (by simp)
  rcases List.mem_cons.mp ha with rfl | ha2
  · left
    have : [b].Perm [y] := (List.perm_cons a).mp h
    rw [List.perm_singleton.mp this]
  · rw [List.mem_singleton.mp ha2]
    right
    have h2 : [y, b].Perm [y, x] := by
      have hswap : ([x, y] : List α).Perm [y, x] := List.Perm.swap y x []
      exact (List.mem_singleton.mp ha2 ▸ h).trans hswap
    have : [b].Perm [x] := (List.perm_cons y).mp h2
    rw [List.perm_singleton.mp this]

/- ## canPlace and SafeGrid -/

theorem canPlace_iff {g : CGrid} {rows cols r c : Nat} {d : Dept} :
    canPlace g rows cols r c d = true ↔
      ∀ p ∈ neighbors r c rows cols, getCell g p.1 p.2 ≠ some d := by
  simp [canPlace, List.all_eq_true]

theorem SafeGrid.place {rows cols : Nat} {g : CGrid} (hsh : Shaped rows cols g)
    (hS : SafeGrid rows cols g) {r c : Nat} {d : Dept}
    (hr : r < rows) (hc : c < cols) (hcan : canPlace g rows cols r c d = true) :
    SafeGrid rows cols (setCell g r c (some d)) := by
  have hrg : r < g.length := by rw [hsh.1]; exact hr
  have hcg : c < (g.getD r []).length := by rw [hsh.row_len hr]; exact hc
  intro a b ha hb p hp hne
  by_cases hab : (a, b) = (r, c)
  · rw [Prod.mk.injEq] at hab
    obtain ⟨rfl, rfl⟩ := hab
    have hpne : p ≠ (a, b) := mem_neighbors_ne_self hp
    rw [getCell_setCell_self _ hrg hcg, getCell_setCell_ne g _ hpne]
    exact fun he => (canPlace_iff.mp hcan p hp) he.symm
  · rw [getCell_setCell_ne g _ hab]
    by_cases hpc : p = (r, c)
    · subst hpc
      rw [getCell_setCell_self _ hrg hcg]
      have hmem : (a, b) ∈ neighbors r c rows cols := mem_neighbors_symm ha hb hp
      have := canPlace_iff.mp hcan (a, b) hmem
      exact fun he => this (by rw [← he])
    · rw [getCell_setCell_ne g _ hpc]
      rw [getCell_setCell_ne g _ hab] at hne
      exact hS a b ha hb p hp hne

theorem SafeGrid.unplace {rows cols : Nat} {g : CGrid} (hsh : Shaped rows cols g)
    (hS : SafeGrid rows cols g) (r c : Nat) :
    SafeGrid rows cols (setCell g r c none) := by
  intro a b ha hb p hp hne
  by_cases hab : (a, b) = (r, c)
  · rw [Prod.mk.injEq] at hab
    obtain ⟨rfl, rfl⟩ := hab
    by_cases hrg : a < g.length
    · by_cases hcg : b < (g.getD a []).length
      · rw [getCell_setCell_self _ hrg hcg] at hne
        exact absurd rfl hne
      · have hcols : (g.getD a []).length = cols := hsh.row_len (hsh.1 ▸ hrg)
        omega
    · rw [hsh.1] at hrg
      omega
  · rw [getCell_setCell_ne g _ hab]
    rw [getCell_setCell_ne g _ hab] at hne
    by_cases hpc : p = (r, c)
    · subst hpc
      intro he
      by_cases hrg : r < g.length
      · by_cases hcg : c < (g.getD r []).length
        · rw [getCell_setCell_self _ hrg hcg] at he
          exact hne (he.trans rfl) |>.elim
        · have : (g.getD r []).set c none = g.getD r [] :=
            List.set_eq_of_length_le (by omega)
          unfold setCell at he
          rw [this] at he
          have hgg : g.set r (g.getD r []) = g := by
            apply list_set_self
            rw [List.getElem?_eq_getElem hrg, getD_eq_getElem_of_lt hrg]
          rw [hgg] at he
          exact hS a b ha hb (r, c) hp hne he
      · have hgg : g.set r ((g.getD r []).set c none) = g :=
          List.set_eq_of_length_le (by omega)
        unfold setCell at he
        rw [hgg] at he
        exact hS a b ha hb (r, c) hp hne he
    · rw [getCell_setCell_ne g _ hpc]
      exact hS a b ha hb p hp hne

/- ## cellsOf -/

theorem mem_cellsOf {rows cols : Nat} {p : Nat × Nat} :
    p ∈ cellsOf rows cols ↔ p.1 < rows ∧ p.2 < cols := by
  obtain ⟨a, b⟩ := p
  unfold cellsOf
  rw [List.mem_flatMap]
  constructor
  · rintro ⟨r, hr, hmem⟩
    rcases List.mem_map.mp hmem with ⟨c, hcm, he⟩
    rw [Prod.mk.injEq] at he
    obtain ⟨rfl, rfl⟩ := he
    exact ⟨List.mem_range.mp hr, List.mem_range.mp hcm⟩
  · rintro ⟨h1, h2⟩
    exact ⟨a, List.mem_range.mpr h1,
      List.mem_map.mpr ⟨b, List.mem_range.mpr h2, rfl⟩⟩

theorem nodup_cellsOf (rows cols : Nat) : (cellsOf rows cols).Nodup := by
  unfold cellsOf
  apply List.nodup_flatMap.mpr
  constructor
  · intro r _
    exact (List.nodup_range cols).map (fun c1 c2 h => by
      rw [Prod.mk.injEq] at h
      exact h.2)
  · apply List.Pairwise.imp ?_ (List.nodup_range rows)
    intro r1 r2 hne
    intro p hp1 hp2
    rcases List.mem_map.mp hp1 with ⟨c1, _, rfl⟩
    rcases List.mem_map.mp hp2 with ⟨c2, _, he⟩
    rw [Prod.mk.injEq] at he
    exact hne he.1.symm

/- ## Counting over the whole grid -/

theorem sum_indicator {keys : List Dept} (hnd : keys.Nodup) {k0 : Dept}
    (hk : k0 ∈ keys) :
    (keys.map fun k => if k0 = k then (1 : Nat) else 0).sum = 1 := by
  induction keys with
  | nil => simp at hk
  | cons a t ih =>
    rw [List.nodup_cons] at hnd
    rcases List.mem_cons.mp hk with rfl | hk2
    · rw [List.map_cons, List.sum_cons, if_pos rfl]
      have hz : (t.map fun k => if k0 = k then (1 : Nat) else 0).sum = 0 := by
        apply List.sum_eq_zero
        intro x hx
        rcases List.mem_map.mp hx with ⟨k, hkt, rfl⟩
        have : k0 ≠ k := fun he => hnd.1 (he ▸ hkt)
        rw [if_neg this]
      omega
    · have hne : k0 ≠ a := fun he => hnd.1 (he ▸ hk2)
      rw [List.map_cons, List.sum_cons, if_neg hne, ih hnd.2 hk2]

theorem sum_counts_eq_length (keys : List Dept) :
    ∀ F : List (Option Dept), keys.Nodup →
      (∀ x ∈ F, ∃ k ∈ keys, x = some k) →
      (keys.map fun k => F.countP fun x => x == some k).sum = F.length := by
  intro F
  induction F with
  | nil => intro _ _; simp
  | cons x F ih =>
    intro hnd hF
    obtain ⟨k0, hk0, rfl⟩ := hF x (by simp)
    have hrest : ∀ y ∈ F, ∃ k ∈ keys, y = some k := fun y hy => hF y (by simp [hy])
    have hcnt : ∀ k : Dept, ((some k0 :: F).countP fun x => x == some k)
        = (F.countP fun x => x == some k) + (if k0 = k then 1 else 0) := by
      intro k
      rw [List.countP_cons]
      congr 1
      by_cases h : k0 = k <;> simp [h]
    simp only [hcnt]
    rw [sum_map_add, ih hnd hrest, sum_indicator hnd hk0]
    simp

theorem flatten_all_some {rows cols : Nat} {g : CGrid} (hsh : Shaped rows cols g)
    (hfull : FullGrid rows cols g) : ∀ x ∈ g.flatten, x ≠ none := by
  intro x hx
  rw [List.mem_flatten] at hx
  obtain ⟨row, hrow, hxrow⟩ := hx
  obtain ⟨r, hr, hgr⟩ := List.getElem_of_mem hrow
  obtain ⟨c, hc, hgc⟩ := List.getElem_of_mem hxrow
  have hrowD : g.getD r [] = row := by rw [getD_eq_getElem_of_lt hr, hgr]
  have hcD : c < (g.getD r []).length := by rw [hrowD]; exact hc
  have hcell : getCell g r c = x := by
    rw [getCell_eq_getElem hr hcD]
    have : (g.getD r [])[c] = row[c] := by
      congr 1
    rw [this, hgc]
  have hcols : c < cols := by
    rw [← hsh.2 row hrow]
    exact hc
  have := hfull r c (by rw [← hsh.1]; exact hr) hcols
  rw [hcell] at this
  exact this

theorem flatten_length {rows cols : Nat} {g : CGrid} (hsh : Shaped rows cols g) :
    g.flatten.length = rows * cols := by
  obtain ⟨h1, h2⟩ := hsh
  subst h1
  induction g with
  | nil => simp
  | cons row rest ih =>
    rw [List.flatten_cons, List.length_append, h2 row (by simp),
      ih fun r hr => h2 r (by simp [hr])]
    simp [List.length_cons]
    ring

/- ## The search invariant -/

/-- Invariant of a search state: rectangular safe grid, `countsLeft` has the
keys of `countsMap`, its values are the requested counts minus the placed
counts, and no value drops below `min (requested) 0`. -/
def StInv (rows cols : Nat) (cm : List (Dept × Int)) (st : SState) : Prop :=
  Shaped rows cols st.grid ∧
  SafeGrid rows cols st.grid ∧
  st.countsLeft.map Prod.fst = cm.map Prod.fst ∧
  (∀ d, lookupD st.countsLeft d = lookupD cm d - countGridI st.grid d) ∧
  (∀ d, min (lookupD cm d) 0 ≤ lookupD st.countsLeft d)

/-- The remaining cells are distinct, in bounds and unassigned. -/
def RestOk (rows cols : Nat) (rest : List (Nat × Nat)) (st : SState) : Prop :=
  rest.Nodup ∧ ∀ p ∈ rest, p.1 < rows ∧ p.2 < cols ∧ getCell st.grid p.1 p.2 = none

/-- What a search call guarantees: the invariant on the output state, exact
restoration of grid and counts on failure, and on success assignment of all
cells that were remaining or already assigned. -/
def DfsPost (rows cols : Nat) (cm : List (Dept × Int)) (rest : List (Nat × Nat))
    (st : SState) (out : Bool × SState) : Prop :=
  StInv rows cols cm out.2 ∧
  (out.1 = false → out.2.grid = st.grid ∧ out.2.countsLeft = st.countsLeft) ∧
  (out.1 = true → ∀ r c, r < rows → c < cols →
    ((r, c) ∈ rest ∨ getCell st.grid r c ≠ none) → getCell out.2.grid r c ≠ none)

theorem StInv_of_eq {rows cols : Nat} {cm : List (Dept × Int)} {st st2 : SState}
    (hg : st2.grid = st.grid) (hcl : st2.countsLeft = st.countsLeft)
    (h : StInv rows cols cm st) : StInv rows cols cm st2 := by
  unfold StInv at *
  rw [hg, hcl]
  exact h

theorem RestOk_of_eq {rows cols : Nat} {rest : List (Nat × Nat)} {st st2 : SState}
    (hg : st2.grid = st.grid) (h : RestOk rows cols rest st) :
    RestOk rows cols rest st2 := by
  unfold RestOk at *
  rw [hg]
  exact h

theorem tryCands_main {rows cols : Nat} {cm : List (Dept × Int)}
    (next : SState → Bool × SState) (rest' : List (Nat × Nat))
    (hnext : ∀ st, StInv rows cols cm st → RestOk rows cols rest' st →
      DfsPost rows cols cm rest' st (next st))
    {r c : Nat} (hr : r < rows) (hc : c < cols) :
    ∀ cand st, StInv rows cols cm st → RestOk rows cols rest' st →
      getCell st.grid r c = none → (r, c) ∉ rest' →
      (∀ d ∈ cand, 0 < lookupD st.countsLeft d) →
      DfsPost rows cols cm ((r, c) :: rest') st
        (tryCands next r c rows cols cand st) := by
  intro cand
  induction cand with
  | nil =>
    intro st hInv hRest hcell hnotin hpos
    refine ⟨hInv, fun _ => ⟨rfl, rfl⟩, fun htrue => ?_⟩
    simp [tryCands] at htrue
  | cons d ds ih =>
    intro st hInv hRest hcell hnotin hpos
    obtain ⟨hsh, hS, hkeys, hI1, hI2⟩ := hInv
    have hrg : r < st.grid.length := by rw [hsh.1]; exact hr
    have hcg : c < (st.grid.getD r []).length := by rw [hsh.row_len hr]; exact hc
    have hun : tryCands next r c rows cols (d :: ds) st =
        if canPlace st.grid rows cols r c d then
          (if (next ⟨setCell st.grid r c (some d), bump st.countsLeft d (-1),
                st.attempts⟩).1 then
            (true, (next ⟨setCell st.grid r c (some d), bump st.countsLeft d (-1),
                st.attempts⟩).2)
          else
            tryCands next r c rows cols ds
              ⟨setCell (next ⟨setCell st.grid r c (some d),
                  bump st.countsLeft d (-1), st.attempts⟩).2.grid r c none,
                bump (next ⟨setCell st.grid r c (some d),
                  bump st.countsLeft d (-1), st.attempts⟩).2.countsLeft d 1,
                (next ⟨setCell st.grid r c (some d), bump st.countsLeft d (-1),
                  st.attempts⟩).2.attempts⟩)
        else tryCands next r c rows cols ds st := rfl
    rw [hun]
    by_cases hcan : canPlace st.grid rows cols r c d
    · rw [if_pos hcan]
      set st1 : SState :=
        ⟨setCell st.grid r c (some d), bump st.countsLeft d (-1), st.attempts⟩ with hst1
      have hdpos : 0 < lookupD st.countsLeft d := hpos d (by simp)
      have hdmem : d ∈ st.countsLeft.map Prod.fst := mem_keys_of_lookupD_pos hdpos
      have hcnt : ∀ x, countGridI st1.grid x
          = countGridI st.grid x + if x = d then 1 else 0 := by
        intro x
        exact countGridI_setCell hrg hcg hcell x
      have hInv1 : StInv rows cols cm st1 := by
        refine ⟨hsh.setCell_preserve r c (some d),
          SafeGrid.place hsh hS hr hc hcan, ?_, ?_, ?_⟩
        · show (bump st.countsLeft d (-1)).map Prod.fst = cm.map Prod.fst
          rw [map_fst_bump]
          exact hkeys
        · intro x
          show lookupD (bump st.countsLeft d (-1)) x
            = lookupD cm x - countGridI st1.grid x
          rw [hcnt x]
          by_cases hx : x = d
          · subst hx
            rw [lookupD_bump_self hdmem, hI1 x, if_pos rfl]
            push_cast
            omega
          · rw [lookupD_bump_ne hx, hI1 x, if_neg hx]
            push_cast
            omega
        · intro x
          show min (lookupD cm x) 0 ≤ lookupD (bump st.countsLeft d (-1)) x
          by_cases hx : x = d
          · subst hx
            rw [lookupD_bump_self hdmem]
            omega
          · rw [lookupD_bump_ne hx]
            exact hI2 x
      have hRest1 : RestOk rows cols rest' st1 := by
        refine ⟨hRest.1, fun p hp => ?_⟩
        obtain ⟨h1, h2, h3⟩ := hRest.2 p hp
        refine ⟨h1, h2, ?_⟩
        show getCell (setCell st.grid r c (some d)) p.1 p.2 = none
        rw [getCell_setCell_ne st.grid _ (fun he => hnotin (by
          rw [← he]
          exact hp))]
        exact h3
      have hpost := hnext st1 hInv1 hRest1
      rcases hres : next st1 with ⟨ok2, st2⟩
      rw [hres] at hpost
      cases ok2 with
      | true =>
        rw [if_pos rfl]
        refine ⟨hpost.1, fun hfalse => by simp at hfalse, fun _ => ?_⟩
        intro a b ha hb hcase
        have hcov := hpost.2.2 rfl a b ha hb
        rcases hcase with hmem | hassigned
        · rcases List.mem_cons.mp hmem with he | hmem2
          · apply hcov
            right
            rw [Prod.mk.injEq] at he
            obtain ⟨rfl, rfl⟩ := he
            show getCell (setCell st.grid a b (some d)) a b ≠ none
            rw [getCell_setCell_self _ hrg hcg]
            simp
          · exact hcov (Or.inl hmem2)
        · apply hcov
          right
          by_cases he : (a, b) = (r, c)
          · rw [Prod.mk.injEq] at he
            obtain ⟨rfl, rfl⟩ := he
            show getCell (setCell st.grid a b (some d)) a b ≠ none
            rw [getCell_setCell_self _ hrg hcg]
            simp
          · show getCell (setCell st.grid r c (some d)) a b ≠ none
            rw [getCell_setCell_ne st.grid _ he]
            exact hassigned
      | false =>
        rw [if_neg (by simp : ¬((false, st2).1 = true))]
        obtain ⟨hg2, hcl2⟩ := hpost.2.1 rfl
        set st3 : SState :=
          ⟨setCell st2.grid r c none, bump st2.countsLeft d 1, st2.attempts⟩ with hst3
        have hg3 : st3.grid = st.grid := by
          show setCell st2.grid r c none = st.grid
          rw [hg2]
          show setCell (setCell st.grid r c (some d)) r c none = st.grid
          rw [setCell_setCell, setCell_none_cancel hcell]
        have hcl3 : st3.countsLeft = st.countsLeft := by
          show bump st2.countsLeft d 1 = st.countsLeft
          rw [hcl2]
          show bump (bump st.countsLeft d (-1)) d 1 = st.countsLeft
          rw [bump_bump_cancel]
        have hInv3 : StInv rows cols cm st3 :=
          StInv_of_eq hg3 hcl3 ⟨hsh, hS, hkeys, hI1, hI2⟩
        have hRest3 : RestOk rows cols rest' st3 := RestOk_of_eq hg3 hRest
        have hcell3 : getCell st3.grid r c = none := by rw [hg3]; exact hcell
        have hpos3 : ∀ x ∈ ds, 0 < lookupD st3.countsLeft x := by
          intro x hx
          rw [hcl3]
          exact hpos x (by simp [hx])
        have hih := ih st3 hInv3 hRest3 hcell3 hnotin hpos3
        refine ⟨hih.1, fun hfalse => ?_, fun htrue => ?_⟩
        · obtain ⟨ha, hb⟩ := hih.2.1 hfalse
          rw [ha, hb, hg3, hcl3]
          exact ⟨rfl, rfl⟩
        · intro a b ha hb hcase
          apply hih.2.2 htrue a b ha hb
          rcases hcase with hmem | hassigned
          · exact Or.inl hmem
          · right
            rw [hg3]
            exact hassigned
    · rw [if_neg hcan]
      exact ih st ⟨hsh, hS, hkeys, hI1, hI2⟩ hRest hcell hnotin
        fun x hx => hpos x (by simp [hx])

theorem dfs_main {R : Nat → List Dept → List Dept} {rows cols attemptLimit : Nat}
    {cm : List (Dept × Int)} (hR : ∀ n l, (R n l).Perm l)
    (hcm : (cm.map Prod.fst).Nodup) :
    ∀ rest st, StInv rows cols cm st → RestOk rows cols rest st →
      DfsPost rows cols cm rest st (dfs R rows cols attemptLimit rest st) := by
  intro rest
  induction rest with
  | nil =>
    intro st hInv hRest
    have hun : dfs R rows cols attemptLimit [] st =
        if attemptLimit < st.attempts + 1 then
          (false, ⟨st.grid, st.countsLeft, st.attempts + 1⟩)
        else (true, ⟨st.grid, st.countsLeft, st.attempts + 1⟩) := rfl
    rw [hun]
    by_cases hlim : attemptLimit < st.attempts + 1
    · rw [if_pos hlim]
      exact ⟨StInv_of_eq rfl rfl hInv, fun _ => ⟨rfl, rfl⟩,
        fun htrue => by simp at htrue⟩
    · rw [if_neg hlim]
      refine ⟨StInv_of_eq rfl rfl hInv, fun hfalse => by simp at hfalse,
        fun _ => ?_⟩
      intro a b ha hb hcase
      rcases hcase with hmem | hassigned
      · simp at hmem
      · exact hassigned
  | cons p rest' ih =>
    intro st hInv hRest
    obtain ⟨r, c⟩ := p
    have hun : dfs R rows cols attemptLimit ((r, c) :: rest') st =
        if attemptLimit < st.attempts + 1 then
          (false, ⟨st.grid, st.countsLeft, st.attempts + 1⟩)
        else
          tryCands (dfs R rows cols attemptLimit rest') r c rows cols
            (R (st.attempts + 1) (sortByDesc (lookupD st.countsLeft)
              ((st.countsLeft.filter fun p => 0 < p.2).map Prod.fst)))
            ⟨st.grid, st.countsLeft, st.attempts + 1⟩ := rfl
    rw [hun]
    by_cases hlim : attemptLimit < st.attempts + 1
    · rw [if_pos hlim]
      exact ⟨StInv_of_eq rfl rfl hInv, fun _ => ⟨rfl, rfl⟩,
        fun htrue => by simp at htrue⟩
    · rw [if_neg hlim]
      set st1 : SState := ⟨st.grid, st.countsLeft, st.attempts + 1⟩ with hst1
      have hInv1 : StInv rows cols cm st1 := StInv_of_eq rfl rfl hInv
      have hRest1 : RestOk rows cols rest' st1 := by
        refine ⟨(List.nodup_cons.mp hRest.1).2, fun q hq => hRest.2 q (by simp [hq])⟩
      obtain ⟨hrb, hcb, hcell⟩ := hRest.2 (r, c) (by simp)
      have hnotin : (r, c) ∉ rest' := (List.nodup_cons.mp hRest.1).1
      have hpos : ∀ x ∈ R (st.attempts + 1) (sortByDesc (lookupD st.countsLeft)
          ((st.countsLeft.filter fun p => 0 < p.2).map Prod.fst)),
          0 < lookupD st1.countsLeft x := by
        intro x hx
        have hx1 : x ∈ sortByDesc (lookupD st.countsLeft)
            ((st.countsLeft.filter fun p => 0 < p.2).map Prod.fst) :=
          (hR _ _).subset hx
        have hx2 : x ∈ (st.countsLeft.filter fun p => 0 < p.2).map Prod.fst :=
          (sortByDesc_perm _ _).subset hx1
        have hnod : (st.countsLeft.map Prod.fst).Nodup := by
          rw [hInv.2.2.1]
          exact hcm
        exact lookupD_pos_of_mem_posKeys hnod hx2
      have hres := tryCands_main (dfs R rows cols attemptLimit rest') rest'
        (fun st2 hInv2 hRest2 => ih st2 hInv2 hRest2) hrb hcb _ st1 hInv1 hRest1
        hcell hnotin hpos
      refine ⟨hres.1, fun hfalse => hres.2.1 hfalse, fun htrue => ?_⟩
      exact hres.2.2 htrue

/- ## The pool length and the counting argument -/

theorem poolOf_length_int (cm : List (Dept × Int)) :
    ((poolOf cm).length : Int) = (cm.map fun p => max p.2 0).sum := by
  unfold poolOf
  induction cm with
  | nil => simp
  | cons p t ih =>
    rw [List.filter_cons]
    by_cases h : 0 < p.2
    · rw [if_pos (by simpa using h)]
      rw [List.flatMap_cons, List.length_append, List.length_replicate]
      rw [List.map_cons, List.sum_cons]
      push_cast
      rw [ih, Int.toNat_eq_max]
    · rw [if_neg (by simpa using h)]
      rw [List.map_cons, List.sum_cons, ih]
      have hmax : max p.2 0 = 0 := by omega
      omega

theorem sum_map_lookup (f : Int → Int) :
    ∀ cm : List (Dept × Int), (cm.map Prod.fst).Nodup →
      ((cm.map Prod.fst).map fun k => f (lookupD cm k)).sum
        = (cm.map fun p => f p.2).sum := by
  intro cm
  induction cm with
  | nil => intro _; simp
  | cons p t ih =>
    intro hnd
    rw [List.map_cons, List.nodup_cons] at hnd
    rw [List.map_cons, List.map_cons, List.map_cons, List.sum_cons, List.sum_cons]
    rw [lookupD_cons, if_pos rfl]
    congr 1
    have hcongr : ∀ k ∈ t.map Prod.fst, f (lookupD (p :: t) k) = f (lookupD t k) := by
      intro k hk
      rw [lookupD_cons, if_neg (by
        intro he
        exact hnd.1 (by rw [he]; exact hk))]
    rw [List.map_congr_left hcongr, ih hnd.2]

theorem sum_le_pointwise_eq {α : Type _} :
    ∀ (l : List α) (f g : α → Int), (∀ x ∈ l, f x ≤ g x) →
      (l.map f).sum = (l.map g).sum → ∀ x ∈ l, f x = g x := by
  intro l
  induction l with
  | nil => intro f g _ _ x hx; simp at hx
  | cons a t ih =>
    intro f g hle hsum x hx
    have htail_le : (t.map f).sum ≤ (t.map g).sum :=
      List.sum_le_sum fun i hi => hle i (by simp [hi])
    have hhead_le : f a ≤ g a := hle a (by simp)
    rw [List.map_cons, List.map_cons, List.sum_cons, List.sum_cons] at hsum
    rcases List.mem_cons.mp hx with rfl | hxt
    · omega
    · have htail_eq : (t.map f).sum = (t.map g).sum := by omega
      exact ih f g (fun y hy => hle y (by simp [hy])) htail_eq x hxt

/-- Everything `tryArrange` guarantees about a returned grid: shape, the
adjacency invariant, full assignment, and exact count fidelity (the number of
cells of each department is `max (requested) 0`, i.e. the requested count for
non-negative requests and 0 for departments with non-positive or absent
entries). -/
theorem tryArrangeSt_eq (R : Nat → List Dept → List Dept)
    (rows cols : Nat) (cm : List (Dept × Int)) (al : Nat) :
    tryArrangeSt R rows cols cm al =
      if (poolOf cm).length ≠ rows * cols then (none, 0)
      else
        ((if (dfs R rows cols al (cellsOf rows cols)
              ⟨List.replicate rows (List.replicate cols none), cm, 0⟩).1
          then some (dfs R rows cols al (cellsOf rows cols)
              ⟨List.replicate rows (List.replicate cols none), cm, 0⟩).2.grid
          else none),
          (dfs R rows cols al (cellsOf rows cols)
              ⟨List.replicate rows (List.replicate cols none), cm, 0⟩).2.attempts) := rfl

theorem tryArrange_success {R : Nat → List Dept → List Dept}
    {rows cols attemptLimit : Nat} {cm : List (Dept × Int)} {grid : CGrid}
    (hR : ∀ n l, (R n l).Perm l) (hcm : (cm.map Prod.fst).Nodup)
    (h : tryArrange R rows cols cm attemptLimit = some grid) :
    Shaped rows cols grid ∧ SafeGrid rows cols grid ∧ FullGrid rows cols grid ∧
      ∀ d, (countGridI grid d : Int) = max (lookupD cm d) 0 := by
  unfold tryArrange at h
  rw [tryArrangeSt_eq] at h
  by_cases hlen : (poolOf cm).length ≠ rows * cols
  · rw [if_pos hlen] at h
    simp at h
  · rw [if_neg hlen] at h
    push_neg at hlen
    set st0 : SState := ⟨List.replicate rows (List.replicate cols none), cm, 0⟩ with hst0
    have hInv0 : StInv rows cols cm st0 := by
      refine ⟨shaped_replicate rows cols, ?_, rfl, ?_, ?_⟩
      · intro r c _ _ p _ hne
        rw [show st0.grid = List.replicate rows (List.replicate cols none) from rfl,
          getCell_replicate] at hne
        exact absurd rfl hne
      · intro d
        show lookupD cm d = lookupD cm d -
          (countGridI (List.replicate rows (List.replicate cols none)) d : Int)
        rw [countGridI_replicate]
        push_cast
        omega
      · intro d
        show min (lookupD cm d) 0 ≤ lookupD cm d
        omega
    have hRest0 : RestOk rows cols (cellsOf rows cols) st0 := by
      refine ⟨nodup_cellsOf rows cols, fun p hp => ?_⟩
      obtain ⟨h1, h2⟩ := mem_cellsOf.mp hp
      exact ⟨h1, h2, getCell_replicate rows cols p.1 p.2⟩
    have hpost := @dfs_main R rows cols attemptLimit cm hR hcm (cellsOf rows cols)
      st0 hInv0 hRest0
    rcases hres : dfs R rows cols attemptLimit (cellsOf rows cols) st0 with ⟨ok, st1⟩
    rw [hres] at hpost h
    cases ok with
    | false => simp at h
    | true =>
      simp only [if_pos rfl] at h
      have hgrid : st1.grid = grid := by
        simpa using h
      obtain ⟨⟨hsh, hS, hkeys, hI1, hI2⟩, _, hcov⟩ := hpost
      rw [hgrid] at hsh hS hI1
      have hfull : FullGrid rows cols grid := by
        intro a b ha hb
        have := hcov rfl a b ha hb (Or.inl (mem_cellsOf.mpr ⟨ha, hb⟩))
        rw [hgrid] at this
        exact this
      refine ⟨hsh, hS, hfull, ?_⟩
      -- count fidelity via the sum argument
      have hle : ∀ d, (countGridI grid d : Int) ≤ max (lookupD cm d) 0 := by
        intro d
        have h1 := hI1 d
        have h2 := hI2 d
        omega
      have hnotmem : ∀ d, d ∉ cm.map Prod.fst → countGridI grid d = 0 := by
        intro d hd
        have h1 := hI1 d
        have h2 := hI2 d
        rw [lookupD_eq_zero_of_not_mem hd] at h1 h2
        omega
      have hFsome : ∀ x ∈ grid.flatten, ∃ k ∈ cm.map Prod.fst, x = some k := by
        intro x hx
        have hne := flatten_all_some hsh hfull x hx
        rcases x with _ | k
        · exact absurd rfl hne
        · refine ⟨k, ?_, rfl⟩
          by_contra hk
          have hzero := hnotmem k hk
          rw [countGridI_eq_flatten] at hzero
          have hpos : 0 < grid.flatten.countP fun y => y == some k :=
            List.countP_pos_iff.mpr ⟨some k, hx, by simp⟩
          omega
      have hsumA : ((cm.map Prod.fst).map fun k => countGridI grid k).sum
          = rows * cols := by
        have := sum_counts_eq_length (cm.map Prod.fst) grid.flatten hcm hFsome
        rw [flatten_length hsh] at this
        rw [← this]
        have hmapeq : ((cm.map Prod.fst).map fun k => countGridI grid k)
            = (cm.map Prod.fst).map fun k => grid.flatten.countP fun x => x == some k :=
          List.map_congr_left fun k _ => countGridI_eq_flatten grid k
        rw [hmapeq]
      have hsumB : ((cm.map Prod.fst).map fun k => max (lookupD cm k) 0).sum
          = ((rows * cols : Nat) : Int) := by
        rw [sum_map_lookup (fun v => max v 0) cm hcm, ← poolOf_length_int, hlen]
      have hsum_eq : ((cm.map Prod.fst).map fun k => (countGridI grid k : Int)).sum
          = ((cm.map Prod.fst).map fun k => max (lookupD cm k) 0).sum := by
        rw [hsumB]
        rw [show ((cm.map Prod.fst).map fun k => (countGridI grid k : Int))
            = ((cm.map Prod.fst).map fun k => countGridI grid k).map Nat.cast by
          simp only [List.map_map]
          exact List.map_congr_left fun k _ => rfl]
        rw [← Nat.cast_list_sum, hsumA]
      have hkey_eq := sum_le_pointwise_eq (cm.map Prod.fst)
        (fun k => (countGridI grid k : Int)) (fun k => max (lookupD cm k) 0)
        (fun x _ => hle x) hsum_eq
      intro d
      by_cases hd : d ∈ cm.map Prod.fst
      · exact hkey_eq d hd
      · rw [hnotmem d hd, lookupD_eq_zero_of_not_mem hd]
        simp

/- ## Attempt counter lemmas -/

theorem tryCands_attempts_mono (next : SState → Bool × SState)
    (hnext : ∀ st, st.attempts ≤ (next st).2.attempts) (r c rows cols : Nat) :
    ∀ cand st, st.attempts ≤ (tryCands next r c rows cols cand st).2.attempts := by
  intro cand
  induction cand with
  | nil => intro st; exact Nat.le_refl _
  | cons d ds ih =>
    intro st
    have hun : tryCands next r c rows cols (d :: ds) st =
        if canPlace st.grid rows cols r c d then
          (if (next ⟨setCell st.grid r c (some d), bump st.countsLeft d (-1),
                st.attempts⟩).1 then
            (true, (next ⟨setCell st.grid r c (some d), bump st.countsLeft d (-1),
                st.attempts⟩).2)
          else
            tryCands next r c rows cols ds
              ⟨setCell (next ⟨setCell st.grid r c (some d),
                  bump st.countsLeft d (-1), st.attempts⟩).2.grid r c none,
                bump (next ⟨setCell st.grid r c (some d),
                  bump st.countsLeft d (-1), st.attempts⟩).2.countsLeft d 1,
                (next ⟨setCell st.grid r c (some d), bump st.countsLeft d (-1),
                  st.attempts⟩).2.attempts⟩)
        else tryCands next r c rows cols ds st := rfl
    rw [hun]
    by_cases hcan : canPlace st.grid rows cols r c d
    · rw [if_pos hcan]
      rcases hres : next ⟨setCell st.grid r c (some d), bump st.countsLeft d (-1),
        st.attempts⟩ with ⟨ok2, st2⟩
      have h1 : st.attempts ≤ st2.attempts := by
        have := hnext ⟨setCell st.grid r c (some d), bump st.countsLeft d (-1),
          st.attempts⟩
        rw [hres] at this
        exact this
      cases ok2 with
      | false =>
        rw [if_neg (by simp)]
        exact le_trans h1 (ih ⟨setCell st2.grid r c none,
          bump st2.countsLeft d 1, st2.attempts⟩)
      | true =>
        rw [if_pos rfl]
        exact h1
    · rw [if_neg hcan]
      exact ih st

theorem dfs_attempts_ge (R : Nat → List Dept → List Dept) (rows cols al : Nat) :
    ∀ rest st, st.attempts + 1 ≤ (dfs R rows cols al rest st).2.attempts := by
  intro rest
  induction rest with
  | nil =>
    intro st
    have hun : dfs R rows cols al [] st =
        if al < st.attempts + 1 then
          (false, ⟨st.grid, st.countsLeft, st.attempts + 1⟩)
        else (true, ⟨st.grid, st.countsLeft, st.attempts + 1⟩) := rfl
    rw [hun]
    by_cases h : al < st.attempts + 1
    · rw [if_pos h]
    · rw [if_neg h]
  | cons p rest' ih =>
    intro st
    obtain ⟨r, c⟩ := p
    have hun : dfs R rows cols al ((r, c) :: rest') st =
        if al < st.attempts + 1 then
          (false, ⟨st.grid, st.countsLeft, st.attempts + 1⟩)
        else
          tryCands (dfs R rows cols al rest') r c rows cols
            (R (st.attempts + 1) (sortByDesc (lookupD st.countsLeft)
              ((st.countsLeft.filter fun p => 0 < p.2).map Prod.fst)))
            ⟨st.grid, st.countsLeft, st.attempts + 1⟩ := rfl
    rw [hun]
    by_cases h : al < st.attempts + 1
    · rw [if_pos h]
    · rw [if_neg h]
      exact tryCands_attempts_mono (dfs R rows cols al rest')
        (fun st2 => le_trans (Nat.le_succ _) (ih st2)) r c rows cols
        (R (st.attempts + 1) (sortByDesc (lookupD st.countsLeft)
          ((st.countsLeft.filter fun p => 0 < p.2).map Prod.fst)))
        ⟨st.grid, st.countsLeft, st.attempts + 1⟩

theorem lookupD_nonneg {cm : List (Dept × Int)} (hnn : ∀ p ∈ cm, 0 ≤ p.2)
    (d : Dept) : 0 ≤ lookupD cm d := by
  unfold lookupD
  cases hf : cm.find? fun p => p.1 == d with
  | none => exact le_refl 0
  | some p => exact hnn p (List.mem_of_find?_eq_some hf)

/- ## Claim C1 -/

/-- C1: for every rows, cols, countsMap and attemptLimit, if `tryArrange`
returns a non-null grid, then for every cell (r,c) and every in-bounds
orthogonal neighbor (up/down/left/right, no diagonals, no wraparound), the
category at (r,c) differs from the category at the neighbor.  The randomness
oracle is an arbitrary permutation-producing function and the countsMap has
the distinct keys of a JS object. -/
theorem claim_C1 (R : Nat → List Dept → List Dept) (rows cols attemptLimit : Nat)
    (cm : List (Dept × Int)) (grid : CGrid)
    (hR : ∀ n l, (R n l).Perm l) (hcm : (cm.map Prod.fst).Nodup)
    (h : tryArrange R rows cols cm attemptLimit = some grid) :
    ∀ r c, r < rows → c < cols → ∀ p ∈ neighbors r c rows cols,
      getCell grid r c ≠ getCell grid p.1 p.2 := by
  obtain ⟨_, hS, hfull, _⟩ := tryArrange_success hR hcm h
  intro r c hr hc p hp
  exact hS r c hr hc p hp (hfull r c hr hc)

/-- Witness for C1 on the concrete instance rows=1, cols=2,
counts={A:1,B:1}: cell (0,0) and its right neighbor (0,1) differ. -/
theorem claim_C1_witness :
    getCell [[some "A", some "B"]] 0 0 ≠ getCell [[some "A", some "B"]] 0 1 :=
  claim_C1 Rid 1 2 20000 [("A", 1), ("B", 1)] [[some "A", some "B"]]
    (fun _ l => List.Perm.refl l) (by decide) (by decide)
    0 0 (by decide) (by decide) (0, 1) (by decide)

/- ## Claim C2 -/

/-- C2: if `tryArrange` returns a non-null grid, every cell holds some
category, and for every category the number of cells holding it equals its
requested count in the countsMap exactly (0 for absent categories; in
particular a category with count 0 never appears).  The countsMap is a
non-negative CountRequest with the distinct keys of a JS object, and the
randomness oracle produces permutations. -/
theorem claim_C2 (R : Nat → List Dept → List Dept) (rows cols attemptLimit : Nat)
    (cm : List (Dept × Int)) (grid : CGrid)
    (hR : ∀ n l, (R n l).Perm l) (hcm : (cm.map Prod.fst).Nodup)
    (hnn : ∀ p ∈ cm, 0 ≤ p.2)
    (h : tryArrange R rows cols cm attemptLimit = some grid) :
    (∀ r c, r < rows → c < cols → getCell grid r c ≠ none) ∧
      ∀ d, (countGridI grid d : Int) = lookupD cm d := by
  obtain ⟨_, _, hfull, hcnt⟩ := tryArrange_success hR hcm h
  refine ⟨hfull, fun d => ?_⟩
  rw [hcnt d]
  have := lookupD_nonneg hnn d
  omega

/-- Witness for C2 on the concrete instance rows=1, cols=2,
counts={A:1,B:1}: the returned grid is fully assigned at (0,0) and holds
exactly one A. -/
theorem claim_C2_witness :
    getCell [[some "A", some "B"]] 0 0 ≠ none ∧
      (countGridI [[some "A", some "B"]] "A" : Int)
        = lookupD [("A", 1), ("B", 1)] "A" :=
  ⟨(claim_C2 Rid 1 2 20000 [("A", 1), ("B", 1)] [[some "A", some "B"]]
      (fun _ l => List.Perm.refl l) (by decide) (by decide) (by decide)).1
      0 0 (by decide) (by decide),
    (claim_C2 Rid 1 2 20000 [("A", 1), ("B", 1)] [[some "A", some "B"]]
      (fun _ l => List.Perm.refl l) (by decide) (by decide) (by decide)).2 "A"⟩

/- ## Claim C3 -/

/-- C3: for every rows, cols and non-negative countsMap whose counts do not
sum to rows*cols, `tryArrange` fails immediately: the result is null and the
attempt counter is still 0, i.e. `dfs` was never entered, no placement was
attempted and no cell was ever assigned. -/
theorem claim_C3 (R : Nat → List Dept → List Dept) (rows cols attemptLimit : Nat)
    (cm : List (Dept × Int)) (hnn : ∀ p ∈ cm, 0 ≤ p.2)
    (h : totalCount cm ≠ (rows * cols : Int)) :
    tryArrangeSt R rows cols cm attemptLimit = (none, 0) := by
  rw [tryArrangeSt_eq]
  rw [if_pos ?_]
  intro hlen
  apply h
  have hp := poolOf_length_int cm
  rw [hlen] at hp
  unfold totalCount
  have hcongr : (cm.map fun p => p.2) = cm.map fun p => max p.2 0 :=
    List.map_congr_left fun p hp2 => by
      have := hnn p hp2
      omega
  rw [hcongr, ← hp]
  push_cast
  rfl

/-- Witness for C3 on the spec instance rows=2, cols=2, counts={A:3,B:2}
(sum 5 ≠ 4): the result is null with zero attempts. -/
theorem claim_C3_witness :
    tryArrangeSt Rid 2 2 [("A", 3), ("B", 2)] 20000 = (none, 0) :=
  claim_C3 Rid 2 2 20000 [("A", 3), ("B", 2)] (by decide) (by decide)

/- ## Attempt budget (for C8) -/

theorem bump_length (m : List (Dept × Int)) (d : Dept) (δ : Int) :
    (bump m d δ).length = m.length := by
  simp [bump]

theorem dfs_abort (R : Nat → List Dept → List Dept) (rows cols al : Nat)
    (rest : List (Nat × Nat)) (st : SState) (h : al ≤ st.attempts) :
    dfs R rows cols al rest st = (false, ⟨st.grid, st.countsLeft, st.attempts + 1⟩) := by
  cases rest with
  | nil =>
    have hun : dfs R rows cols al [] st =
        if al < st.attempts + 1 then
          (false, ⟨st.grid, st.countsLeft, st.attempts + 1⟩)
        else (true, ⟨st.grid, st.countsLeft, st.attempts + 1⟩) := rfl
    rw [hun, if_pos (by omega)]
  | cons p rest' =>
    obtain ⟨r, c⟩ := p
    have hun : dfs R rows cols al ((r, c) :: rest') st =
        if al < st.attempts + 1 then
          (false, ⟨st.grid, st.countsLeft, st.attempts + 1⟩)
        else
          tryCands (dfs R rows cols al rest') r c rows cols
            (R (st.attempts + 1) (sortByDesc (lookupD st.countsLeft)
              ((st.countsLeft.filter fun p => 0 < p.2).map Prod.fst)))
            ⟨st.grid, st.countsLeft, st.attempts + 1⟩ := rfl
    rw [hun, if_pos (by omega)]

theorem tryCands_cl_len (next : SState → Bool × SState)
    (hnext : ∀ st, (next st).2.countsLeft.length = st.countsLeft.length)
    (r c rows cols : Nat) :
    ∀ cand st, (tryCands next r c rows cols cand st).2.countsLeft.length
      = st.countsLeft.length := by
  intro cand
  induction cand with
  | nil => intro st; rfl
  | cons d ds ih =>
    intro st
    have hun : tryCands next r c rows cols (d :: ds) st =
        if canPlace st.grid rows cols r c d then
          (if (next ⟨setCell st.grid r c (some d), bump st.countsLeft d (-1),
                st.attempts⟩).1 then
            (true, (next ⟨setCell st.grid r c (some d), bump st.countsLeft d (-1),
                st.attempts⟩).2)
          else
            tryCands next r c rows cols ds
              ⟨setCell (next ⟨setCell st.grid r c (some d),
               bump st.countsLeft d (-1), st.attempts⟩).2.grid r c none,
                bump (next ⟨setCell st.grid r c (some d),
                  bump st.countsLeft d (-1), st.attempts⟩).2.countsLeft d 1,
                (next ⟨setCell st.grid r c (some d), bump st.countsLeft d (-1),
                  st.attempts⟩).2.attempts⟩)
        else tryCands next r c rows cols ds st := rfl
    rw [hun]
    by_cases hcan : canPlace st.grid rows cols r c d
    · rw [if_pos hcan]
      have hl1 := hnext ⟨setCell st.grid r c (some d), bump st.countsLeft d (-1),
        st.attempts⟩
      rcases hres : next ⟨setCell st.grid r c (some d), bump st.countsLeft d (-1),
        st.attempts⟩ with ⟨ok2, st2⟩
      rw [hres] at hl1
      cases ok2 with
      | false =>
        rw [if_neg (by simp)]
        rw [ih ⟨setCell st2.grid r c none, bump st2.countsLeft d 1, st2.attempts⟩]
        show (bump st2.countsLeft d 1).length = st.countsLeft.length
        rw [bump_length, hl1]
        exact bump_length st.countsLeft d (-1)
      | true =>
        rw [if_pos rfl]
        show st2.countsLeft.length = st.countsLeft.length
        rw [hl1]
        exact bump_length st.countsLeft d (-1)
    · rw [if_neg hcan]
      exact ih st

theorem dfs_cl_len (R : Nat → List Dept → List Dept) (rows cols al : Nat) :
    ∀ rest st, (dfs R rows cols al rest st).2.countsLeft.length
      = st.countsLeft.length := by
  intro rest
  induction rest with
  | nil =>
    intro st
    have hun : dfs R rows cols al [] st =
        if al < st.attempts + 1 then
          (false, ⟨st.grid, st.countsLeft, st.attempts + 1⟩)
        else (true, ⟨st.grid, st.countsLeft, st.attempts + 1⟩) := rfl
    rw [hun]
    by_cases h : al < st.attempts + 1
    · rw [if_pos h]
    · rw [if_neg h]
  | cons p rest' ih =>
    intro st
    obtain ⟨r, c⟩ := p
    have hun : dfs R rows cols al ((r, c) :: rest') st =
        if al < st.attempts + 1 then
          (false, ⟨st.grid, st.countsLeft, st.attempts + 1⟩)
        else
          tryCands (dfs R rows cols al rest') r c rows cols
            (R (st.attempts + 1) (sortByDesc (lookupD st.countsLeft)
              ((st.countsLeft.filter fun p => 0 < p.2).map Prod.fst)))
            ⟨st.grid, st.countsLeft, st.attempts + 1⟩ := rfl
    rw [hun]
    by_cases h : al < st.attempts + 1
    · rw [if_pos h]
    · rw [if_neg h]
      exact tryCands_cl_len (dfs R rows cols al rest') ih r c rows cols _ _

theorem budget_step {B C a : Nat} (h : a + 1 ≤ B) :
    searchBudget B C (a + 1) + C = searchBudget B C a := by
  unfold searchBudget
  have h1 : B + 1 - a = (B - a) + 1 := by omega
  have h2 : B + 1 - (a + 1) = B - a := by omega
  rw [h1, h2, Nat.succ_mul]
  generalize (B - a) * (C + 1) = X
  omega

theorem budget_le {B C a : Nat} : a ≤ searchBudget B C a :=
  Nat.le_add_right a _

theorem tryCands_budget {B C : Nat} (next : SState → Bool × SState)
    (hnextb : ∀ st, st.countsLeft.length ≤ C →
      searchBudget B C (next st).2.attempts
        ≤ searchBudget B C st.attempts + (if B < st.attempts then 1 else 0))
    (hnextlen : ∀ st, (next st).2.countsLeft.length = st.countsLeft.length)
    (r c rows cols : Nat) :
    ∀ cand st, st.countsLeft.length ≤ C →
      searchBudget B C (tryCands next r c rows cols cand st).2.attempts
        ≤ searchBudget B C st.attempts + cand.length := by
  intro cand
  induction cand with
  | nil => intro st _; exact Nat.le_add_right _ _
  | cons d ds ih =>
    intro st hlen
    have hun : tryCands next r c rows cols (d :: ds) st =
        if canPlace st.grid rows cols r c d then
          (if (next ⟨setCell st.grid r c (some d), bump st.countsLeft d (-1),
                st.attempts⟩).1 then
            (true, (next ⟨setCell st.grid r c (some d), bump st.countsLeft d (-1),
                st.attempts⟩).2)
          else
            tryCands next r c rows cols ds
              ⟨setCell (next ⟨setCell st.grid r c (some d),
                  bump st.countsLeft d (-1), st.attempts⟩).2.grid r c none,
                bump (next ⟨setCell st.grid r c (some d),
                  bump st.countsLeft d (-1), st.attempts⟩).2.countsLeft d 1,
                (next ⟨setCell st.grid r c (some d), bump st.countsLeft d (-1),
                  st.attempts⟩).2.attempts⟩)
        else tryCands next r c rows cols ds st := rfl
    rw [hun]
    by_cases hcan : canPlace st.grid rows cols r c d
    · rw [if_pos hcan]
      have hb1 := hnextb ⟨setCell st.grid r c (some d), bump st.countsLeft d (-1),
        st.attempts⟩ (by rw [show (⟨setCell st.grid r c (some d),
          bump st.countsLeft d (-1), st.attempts⟩ : SState).countsLeft
            = bump st.countsLeft d (-1) from rfl, bump_length]; exact hlen)
      have hl1 := hnextlen ⟨setCell st.grid r c (some d), bump st.countsLeft d (-1),
        st.attempts⟩
      rcases hres : next ⟨setCell st.grid r c (some d), bump st.countsLeft d (-1),
        st.attempts⟩ with ⟨ok2, st2⟩
      rw [hres] at hb1 hl1
      have hb1' : searchBudget B C st2.attempts ≤ searchBudget B C st.attempts + 1 := by
        have e1 : (⟨setCell st.grid r c (some d), bump st.countsLeft d (-1),
            st.attempts⟩ : SState).attempts = st.attempts := rfl
        have e2 : ((ok2, st2).2 : SState).attempts = st2.attempts := rfl
        rw [e1, e2] at hb1
        have hite : (if B < st.attempts then 1 else 0) ≤ 1 := by split <;> omega
        omega
      cases ok2 with
      | false =>
        rw [if_neg (by simp)]
        have hlen3 : (⟨setCell st2.grid r c none, bump st2.countsLeft d 1,
            st2.attempts⟩ : SState).countsLeft.length ≤ C := by
          show (bump st2.countsLeft d 1).length ≤ C
          rw [bump_length, hl1]
          show (bump st.countsLeft d (-1)).length ≤ C
          rw [bump_length]
          exact hlen
        have hih := ih ⟨setCell st2.grid r c none, bump st2.countsLeft d 1,
          st2.attempts⟩ hlen3
        have hatt3 : (⟨setCell st2.grid r c none, bump st2.countsLeft d 1,
            st2.attempts⟩ : SState).attempts = st2.attempts := rfl
        rw [hatt3] at hih
        calc searchBudget B C (tryCands next r c rows cols ds
              ⟨setCell st2.grid r c none, bump st2.countsLeft d 1,
                st2.attempts⟩).2.attempts
            ≤ searchBudget B C st2.attempts + ds.length := hih
          _ ≤ searchBudget B C st.attempts + 1 + ds.length := by omega
          _ ≤ searchBudget B C st.attempts + (d :: ds).length := by
              simp [List.length_cons]
              omega
      | true =>
        rw [if_pos rfl]
        show searchBudget B C st2.attempts
          ≤ searchBudget B C st.attempts + (d :: ds).length
        have : (d :: ds).length = ds.length + 1 := by simp
        omega
    · rw [if_neg hcan]
      have := ih st hlen
      have hlen2 : (d :: ds).length = ds.length + 1 := by simp
      omega

theorem dfs_budget {B C : Nat} (R : Nat → List Dept → List Dept)
    (hR : ∀ n l, (R n l).Perm l) (rows cols : Nat) :
    ∀ rest st, st.countsLeft.length ≤ C →
      searchBudget B C (dfs R rows cols B rest st).2.attempts
        ≤ searchBudget B C st.attempts + (if B < st.attempts then 1 else 0) := by
  intro rest
  induction rest with
  | nil =>
    intro st hlen
    have hun : dfs R rows cols B [] st =
        if B < st.attempts + 1 then
          (false, ⟨st.grid, st.countsLeft, st.attempts + 1⟩)
        else (true, ⟨st.grid, st.countsLeft, st.attempts + 1⟩) := rfl
    rw [hun]
    by_cases hlim : B < st.attempts + 1
    · rw [if_pos hlim]
      show searchBudget B C (st.attempts + 1)
        ≤ searchBudget B C st.attempts + (if B < st.attempts then 1 else 0)
      by_cases hgt : B < st.attempts
      · rw [if_pos hgt]
        unfold searchBudget
        have h1 : B + 1 - st.attempts = 0 := by omega
        have h2 : B + 1 - (st.attempts + 1) = 0 := by omega
        rw [h1, h2]
        omega
      · rw [if_neg hgt]
        unfold searchBudget
        have h1 : B + 1 - st.attempts = 1 := by omega
        have h2 : B + 1 - (st.attempts + 1) = 0 := by omega
        rw [h1, h2]
        omega
    · rw [if_neg hlim]
      show searchBudget B C (st.attempts + 1)
        ≤ searchBudget B C st.attempts + (if B < st.attempts then 1 else 0)
      rw [if_neg (by omega)]
      have := budget_step (B := B) (C := C) (a := st.attempts) (by omega)
      omega
  | cons p rest' ih =>
    intro st hlen
    obtain ⟨r, c⟩ := p
    have hun : dfs R rows cols B ((r, c) :: rest') st =
        if B < st.attempts + 1 then
          (false, ⟨st.grid, st.countsLeft, st.attempts + 1⟩)
        else
          tryCands (dfs R rows cols B rest') r c rows cols
            (R (st.attempts + 1) (sortByDesc (lookupD st.countsLeft)
              ((st.countsLeft.filter fun p => 0 < p.2).map Prod.fst)))
            ⟨st.grid, st.countsLeft, st.attempts + 1⟩ := rfl
    rw [hun]
    by_cases hlim : B < st.attempts + 1
    · rw [if_pos hlim]
      show searchBudget B C (st.attempts + 1)
        ≤ searchBudget B C st.attempts + (if B < st.attempts then 1 else 0)
      by_cases hgt : B < st.attempts
      · rw [if_pos hgt]
        unfold searchBudget
        have h1 : B + 1 - st.attempts = 0 := by omega
        have h2 : B + 1 - (st.attempts + 1) = 0 := by omega
        rw [h1, h2]
        omega
      · rw [if_neg hgt]
        unfold searchBudget
        have h1 : B + 1 - st.attempts = 1 := by omega
        have h2 : B + 1 - (st.attempts + 1) = 0 := by omega
        rw [h1, h2]
        omega
    · rw [if_neg hlim]
      have hcandlen : (R (st.attempts + 1) (sortByDesc (lookupD st.countsLeft)
          ((st.countsLeft.filter fun p => 0 < p.2).map Prod.fst))).length ≤ C := by
        rw [(hR _ _).length_eq, (sortByDesc_perm _ _).length_eq, List.length_map]
        exact le_trans (List.length_filter_le _ _) hlen
      have hb := tryCands_budget (dfs R rows cols B rest') ih
        (dfs_cl_len R rows cols B rest') r c rows cols
        (R (st.attempts + 1) (sortByDesc (lookupD st.countsLeft)
          ((st.countsLeft.filter fun p => 0 < p.2).map Prod.fst)))
        ⟨st.grid, st.countsLeft, st.attempts + 1⟩ hlen
      rw [if_neg (by omega)]
      have hstep := budget_step (B := B) (C := C) (a := st.attempts) (by omega)
      have hatt : (⟨st.grid, st.countsLeft, st.attempts + 1⟩ : SState).attempts
          = st.attempts + 1 := rfl
      rw [hatt] at hb
      omega

/- ## Claim C8 -/

/-- C8: for every attempt limit, oracle and input, the search is bounded by
the attempt counter: (a) once the counter reaches the limit, every `dfs`
call aborts immediately, consuming exactly one more attempt and changing
nothing else; (b) the final counter of a whole `tryArrange` run is at most
`(attemptLimit + 1) * (number of countsMap entries + 1)`, so the per-run
counter bounds the total work; and (c) on the infeasible instance rows=2,
cols=2, counts={A:3,B:1} the solver returns (with failure) for every
sequence of random draws rather than running forever. -/
theorem claim_C8 (R : Nat → List Dept → List Dept) (attemptLimit : Nat)
    (hR : ∀ n l, (R n l).Perm l) :
    (∀ rows cols (rest : List (Nat × Nat)) (st : SState), attemptLimit ≤ st.attempts →
      dfs R rows cols attemptLimit rest st
        = (false, ⟨st.grid, st.countsLeft, st.attempts + 1⟩)) ∧
    (∀ rows cols (cm : List (Dept × Int)),
      (tryArrangeSt R rows cols cm attemptLimit).2
        ≤ (attemptLimit + 1) * (cm.length + 1)) ∧
    tryArrange R 2 2 [("A", 3), ("B", 1)] attemptLimit = none := by
  refine ⟨fun rows cols rest st h => dfs_abort R rows cols attemptLimit rest st h,
    ?_, ?_⟩
  · intro rows cols cm
    rw [tryArrangeSt_eq]
    by_cases hlen : (poolOf cm).length ≠ rows * cols
    · rw [if_pos hlen]
      exact Nat.zero_le _
    · rw [if_neg hlen]
      set st0 : SState := ⟨List.replicate rows (List.replicate cols none), cm, 0⟩
      have hb := dfs_budget (B := attemptLimit) (C := cm.length) R hR rows cols
        (cellsOf rows cols) st0 (le_refl _)
      have h0 : searchBudget attemptLimit cm.length st0.attempts
          = (attemptLimit + 1) * (cm.length + 1) := by
        show searchBudget attemptLimit cm.length 0
          = (attemptLimit + 1) * (cm.length + 1)
        unfold searchBudget
        rw [Nat.sub_zero]
        omega
      have hite : (if attemptLimit < st0.attempts then 1 else 0) = 0 := by
        rw [if_neg]
        show ¬attemptLimit < 0
        omega
      rw [h0, hite] at hb
      calc (dfs R rows cols attemptLimit (cellsOf rows cols) st0).2.attempts
          ≤ searchBudget attemptLimit cm.length
            (dfs R rows cols attemptLimit (cellsOf rows cols) st0).2.attempts :=
            budget_le
        _ ≤ (attemptLimit + 1) * (cm.length + 1) + 0 := hb
        _ = (attemptLimit + 1) * (cm.length + 1) := by omega
  · rcases htry : tryArrange R 2 2 [("A", 3), ("B", 1)] attemptLimit with _ | grid
    · rfl
    · exfalso
      obtain ⟨hsh, hS, hfull, hcnt⟩ := tryArrange_success hR (by decide) htry
      obtain ⟨r0, r1, hg⟩ := List.length_eq_two.mp hsh.1
      subst hg
      obtain ⟨a, b, h01⟩ := List.length_eq_two.mp (hsh.2 r0 (by simp))
      obtain ⟨c, d, h23⟩ := List.length_eq_two.mp (hsh.2 r1 (by simp))
      subst h01
      subst h23
      have hA := hcnt "A"
      rw [show lookupD [("A", (3 : Int)), ("B", 1)] "A" = 3 by decide] at hA
      have hA3 : countGridI [[a, b], [c, d]] "A" = 3 := by omega
      have hab : a ≠ b := by
        have h := hS 0 0 (by omega) (by omega) (0, 1) (by decide)
          (hfull 0 0 (by omega) (by omega))
        have e1 : getCell [[a, b], [c, d]] 0 0 = a := rfl
        have e2 : getCell [[a, b], [c, d]] 0 1 = b := rfl
        rw [e1, e2] at h
        exact h
      have hcd : c ≠ d := by
        have h := hS 1 0 (by omega) (by omega) (1, 1) (by decide)
          (hfull 1 0 (by omega) (by omega))
        have e1 : getCell [[a, b], [c, d]] 1 0 = c := rfl
        have e2 : getCell [[a, b], [c, d]] 1 1 = d := rfl
        rw [e1, e2] at h
        exact h
      rw [countGridI_eq_flatten] at hA3
      have hfl : ([[a, b], [c, d]] : CGrid).flatten = [a, b, c, d] := by simp
      rw [hfl] at hA3
      simp only [List.countP_cons, List.countP_nil] at hA3
      by_cases h1 : a = some "A" <;> by_cases h2 : b = some "A" <;>
        by_cases h3 : c = some "A" <;> by_cases h4 : d = some "A" <;>
        simp_all

/-- Witness for C8 with the identity oracle and the default attempt
limit 20000. -/
theorem claim_C8_witness :
    (∀ rows cols (rest : List (Nat × Nat)) (st : SState), 20000 ≤ st.attempts →
      dfs Rid rows cols 20000 rest st
        = (false, ⟨st.grid, st.countsLeft, st.attempts + 1⟩)) ∧
    (∀ rows cols (cm : List (Dept × Int)),
      (tryArrangeSt Rid rows cols cm 20000).2 ≤ (20000 + 1) * (cm.length + 1)) ∧
    tryArrange Rid 2 2 [("A", 3), ("B", 1)] 20000 = none :=
  claim_C8 Rid 20000 fun _ l => List.Perm.refl l

/- ## Small-step unfolding combinators (for C9) -/

theorem tryCands_head_true {next : SState → Bool × SState} {r c rows cols : Nat}
    {d : Dept} {ds : List Dept} {st stp : SState} {out : SState}
    (hcan : canPlace st.grid rows cols r c d = true)
    (hplace : (⟨setCell st.grid r c (some d), bump st.countsLeft d (-1),
      st.attempts⟩ : SState) = stp)
    (hnext : next stp = (true, out)) :
    tryCands next r c rows cols (d :: ds) st = (true, out) := by
  have hun : tryCands next r c rows cols (d :: ds) st =
      if canPlace st.grid rows cols r c d then
        (if (next ⟨setCell st.grid r c (some d), bump st.countsLeft d (-1),
              st.attempts⟩).1 then
          (true, (next ⟨setCell st.grid r c (some d), bump st.countsLeft d (-1),
              st.attempts⟩).2)
        else
          tryCands next r c rows cols ds
            ⟨setCell (next ⟨setCell st.grid r c (some d),
                bump st.countsLeft d (-1), st.attempts⟩).2.grid r c none,
              bump (next ⟨setCell st.grid r c (some d),
                bump st.countsLeft d (-1), st.attempts⟩).2.countsLeft d 1,
              (next ⟨setCell st.grid r c (some d), bump st.countsLeft d (-1),
                st.attempts⟩).2.attempts⟩)
      else tryCands next r c rows cols ds st := rfl
  rw [hun, if_pos hcan, hplace, hnext]
  rfl

theorem tryCands_head_skip {next : SState → Bool × SState} {r c rows cols : Nat}
    {d : Dept} {ds : List Dept} {st : SState} {out : Bool × SState}
    (hcan : canPlace st.grid rows cols r c d = false)
    (hrest : tryCands next r c rows cols ds st = out) :
    tryCands next r c rows cols (d :: ds) st = out := by
  have hun : tryCands next r c rows cols (d :: ds) st =
      if canPlace st.grid rows cols r c d then
        (if (next ⟨setCell st.grid r c (some d), bump st.countsLeft d (-1),
              st.attempts⟩).1 then
          (true, (next ⟨setCell st.grid r c (some d), bump st.countsLeft d (-1),
              st.attempts⟩).2)
        else
          tryCands next r c rows cols ds
            ⟨setCell (next ⟨setCell st.grid r c (some d),
                bump st.countsLeft d (-1), st.attempts⟩).2.grid r c none,
              bump (next ⟨setCell st.grid r c (some d),
                bump st.countsLeft d (-1), st.attempts⟩).2.countsLeft d 1,
              (next ⟨setCell st.grid r c (some d), bump st.countsLeft d (-1),
                st.attempts⟩).2.attempts⟩)
      else tryCands next r c rows cols ds st := rfl
  rw [hun, if_neg (by simp [hcan]), hrest]

theorem dfs_cons_step {R : Nat → List Dept → List Dept} {rows cols al r c : Nat}
    {rest : List (Nat × Nat)} {st : SState} {cand : List Dept} {out : Bool × SState}
    (hlim : ¬al < st.attempts + 1)
    (hcand : R (st.attempts + 1) (sortByDesc (lookupD st.countsLeft)
      ((st.countsLeft.filter fun p => 0 < p.2).map Prod.fst)) = cand)
    (hrun : tryCands (dfs R rows cols al rest) r c rows cols cand
      ⟨st.grid, st.countsLeft, st.attempts + 1⟩ = out) :
    dfs R rows cols al ((r, c) :: rest) st = out := by
  have hun : dfs R rows cols al ((r, c) :: rest) st =
      if al < st.attempts + 1 then
        (false, ⟨st.grid, st.countsLeft, st.attempts + 1⟩)
      else
        tryCands (dfs R rows cols al rest) r c rows cols
          (R (st.attempts + 1) (sortByDesc (lookupD st.countsLeft)
            ((st.countsLeft.filter fun p => 0 < p.2).map Prod.fst)))
          ⟨st.grid, st.countsLeft, st.attempts + 1⟩ := rfl
  rw [hun, if_neg hlim, hcand, hrun]

theorem dfs_nil_done {R : Nat → List Dept → List Dept} {rows cols al : Nat}
    {st : SState} (hlim : ¬al < st.attempts + 1) :
    dfs R rows cols al [] st = (true, ⟨st.grid, st.countsLeft, st.attempts + 1⟩) := by
  have hun : dfs R rows cols al [] st =
      if al < st.attempts + 1 then
        (false, ⟨st.grid, st.countsLeft, st.attempts + 1⟩)
      else (true, ⟨st.grid, st.countsLeft, st.attempts + 1⟩) := rfl
  rw [hun, if_neg hlim]

/- ## Claim C9 -/

/-- C9: on the instance rows=1, cols=4, counts={A:2,B:2} with the default
attempt limit 20000, `tryArrange` returns a valid alternating grid (ABAB or
BABA) for every possible sequence of random draws: whatever permutations the
randomization produces, the backtracking search succeeds after exactly five
attempts and cannot exhaust its budget. -/
theorem claim_C9 (R : Nat → List Dept → List Dept)
    (hR : ∀ n l, (R n l).Perm l) :
    tryArrange R 1 4 [("A", 2), ("B", 2)] 20000
      = some [[some "A", some "B", some "A", some "B"]] ∨
    tryArrange R 1 4 [("A", 2), ("B", 2)] 20000
      = some [[some "B", some "A", some "B", some "A"]] := by
  have hwrap : tryArrange R 1 4 [("A", 2), ("B", 2)] 20000 =
      (if (dfs R 1 4 20000 [(0, 0), (0, 1), (0, 2), (0, 3)]
            ⟨[[none, none, none, none]], [("A", 2), ("B", 2)], 0⟩).1
       then some (dfs R 1 4 20000 [(0, 0), (0, 1), (0, 2), (0, 3)]
            ⟨[[none, none, none, none]], [("A", 2), ("B", 2)], 0⟩).2.grid
       else none) := rfl
  rcases perm_two (hR 1 ["A", "B"]) with hc1 | hc1
  · -- A is placed first: the run ends in A,B,A,B
    left
    have h4A : dfs R 1 4 20000 [(0, 3)]
        ⟨[[some "A", some "B", some "A", none]], [("A", 0), ("B", 1)], 3⟩
        = (true, ⟨[[some "A", some "B", some "A", some "B"]],
            [("A", 0), ("B", 0)], 5⟩) := by
      refine dfs_cons_step (by decide) (List.perm_singleton.mp (hR 4 ["B"])) ?_
      exact tryCands_head_true (by decide) rfl (dfs_nil_done (by decide))
    have h3A : dfs R 1 4 20000 [(0, 2), (0, 3)]
        ⟨[[some "A", some "B", none, none]], [("A", 1), ("B", 1)], 2⟩
        = (true, ⟨[[some "A", some "B", some "A", some "B"]],
            [("A", 0), ("B", 0)], 5⟩) := by
      rcases perm_two (hR 3 ["A", "B"]) with hc3 | hc3
      · exact dfs_cons_step (by decide) hc3
          (tryCands_head_true (by decide) rfl h4A)
      · exact dfs_cons_step (by decide) hc3
          (tryCands_head_skip (by decide) (tryCands_head_true (by decide) rfl h4A))
    have h2A : dfs R 1 4 20000 [(0, 1), (0, 2), (0, 3)]
        ⟨[[some "A", none, none, none]], [("A", 1), ("B", 2)], 1⟩
        = (true, ⟨[[some "A", some "B", some "A", some "B"]],
            [("A", 0), ("B", 0)], 5⟩) := by
      rcases perm_two (hR 2 ["B", "A"]) with hc2 | hc2
      · exact dfs_cons_step (by decide) hc2
          (tryCands_head_true (by decide) rfl h3A)
      · exact dfs_cons_step (by decide) hc2
          (tryCands_head_skip (by decide) (tryCands_head_true (by decide) rfl h3A))
    have htop : dfs R 1 4 20000 [(0, 0), (0, 1), (0, 2), (0, 3)]
        ⟨[[none, none, none, none]], [("A", 2), ("B", 2)], 0⟩
        = (true, ⟨[[some "A", some "B", some "A", some "B"]],
            [("A", 0), ("B", 0)], 5⟩) :=
      dfs_cons_step (by decide) hc1 (tryCands_head_true (by decide) rfl h2A)
    rw [hwrap, htop]
    rfl
  · -- B is placed first: the run ends in B,A,B,A
    right
    have h4B : dfs R 1 4 20000 [(0, 3)]
        ⟨[[some "B", some "A", some "B", none]], [("A", 1), ("B", 0)], 3⟩
        = (true, ⟨[[some "B", some "A", some "B", some "A"]],
            [("A", 0), ("B", 0)], 5⟩) := by
      refine dfs_cons_step (by decide) (List.perm_singleton.mp (hR 4 ["A"])) ?_
      exact tryCands_head_true (by decide) rfl (dfs_nil_done (by decide))
    have h3B : dfs R 1 4 20000 [(0, 2), (0, 3)]
        ⟨[[some "B", some "A", none, none]], [("A", 1), ("B", 1)], 2⟩
        = (true, ⟨[[some "B", some "A", some "B", some "A"]],
            [("A", 0), ("B", 0)], 5⟩) := by
      rcases perm_two (hR 3 ["A", "B"]) with hc3 | hc3
      · exact dfs_cons_step (by decide) hc3
          (tryCands_head_skip (by decide) (tryCands_head_true (by decide) rfl h4B))
      · exact dfs_cons_step (by decide) hc3
          (tryCands_head_true (by decide) rfl h4B)
    have h2B : dfs R 1 4 20000 [(0, 1), (0, 2), (0, 3)]
        ⟨[[some "B", none, none, none]], [("A", 2), ("B", 1)], 1⟩
        = (true, ⟨[[some "B", some "A", some "B", some "A"]],
            [("A", 0), ("B", 0)], 5⟩) := by
      rcases perm_two (hR 2 ["A", "B"]) with hc2 | hc2
      · exact dfs_cons_step (by decide) hc2
          (tryCands_head_true (by decide) rfl h3B)
      · exact dfs_cons_step (by decide) hc2
          (tryCands_head_skip (by decide) (tryCands_head_true (by decide) rfl h3B))
    have htop : dfs R 1 4 20000 [(0, 0), (0, 1), (0, 2), (0, 3)]
        ⟨[[none, none, none, none]], [("A", 2), ("B", 2)], 0⟩
        = (true, ⟨[[some "B", some "A", some "B", some "A"]],
            [("A", 0), ("B", 0)], 5⟩) :=
      dfs_cons_step (by decide) hc1 (tryCands_head_true (by decide) rfl h2B)
    rw [hwrap, htop]
    rfl

/-- Witness for C9 with the identity oracle: the run succeeds with
A,B,A,B. -/
theorem claim_C9_witness :
    tryArrange Rid 1 4 [("A", 2), ("B", 2)] 20000
      = some [[some "A", some "B", some "A", some "B"]] ∨
    tryArrange Rid 1 4 [("A", 2), ("B", 2)] 20000
      = some [[some "B", some "A", some "B", some "A"]] :=
  claim_C9 Rid fun _ l => List.Perm.refl l

/- ## Claim C10 -/

/-- C10: the precheck of `tryArrange` compares rows*cols to the sum of the
strictly positive counts only, so the countsMap {A:4, B:-1} on a 2×2 grid
(true sum 3 ≠ 4) still passes the check, the search proceeds (at least one
attempt is counted), and only positive-count categories are ever placed: a
returned grid holds four A cells and zero B cells. -/
theorem claim_C10 (R : Nat → List Dept → List Dept) (attemptLimit : Nat)
    (hR : ∀ n l, (R n l).Perm l) :
    totalCount [("A", 4), ("B", -1)] = 3 ∧ (3 : Int) ≠ 2 * 2 ∧
      (poolOf [("A", 4), ("B", -1)]).length = 2 * 2 ∧
      1 ≤ (tryArrangeSt R 2 2 [("A", 4), ("B", -1)] attemptLimit).2 ∧
      ∀ grid, tryArrange R 2 2 [("A", 4), ("B", -1)] attemptLimit = some grid →
        countGridI grid "B" = 0 ∧ countGridI grid "A" = 4 := by
  refine ⟨by decide, by decide, by decide, ?_, ?_⟩
  · rw [tryArrangeSt_eq]
    rw [if_neg (by decide)]
    exact le_trans (by omega)
      (dfs_attempts_ge R 2 2 attemptLimit (cellsOf 2 2)
        ⟨List.replicate 2 (List.replicate 2 none), [("A", 4), ("B", -1)], 0⟩)
  · intro grid hgrid
    obtain ⟨_, _, _, hcnt⟩ := tryArrange_success hR (by decide) hgrid
    have hB := hcnt "B"
    have hA := hcnt "A"
    rw [show lookupD [("A", (4 : Int)), ("B", -1)] "B" = -1 by decide] at hB
    rw [show lookupD [("A", (4 : Int)), ("B", -1)] "A" = 4 by decide] at hA
    constructor
    · omega
    · omega

/-- Witness for C10 with the identity oracle and the default attempt
limit. -/
theorem claim_C10_witness :
    totalCount [("A", 4), ("B", -1)] = 3 ∧ (3 : Int) ≠ 2 * 2 ∧
      (poolOf [("A", 4), ("B", -1)]).length = 2 * 2 ∧
      1 ≤ (tryArrangeSt Rid 2 2 [("A", 4), ("B", -1)] 20000).2 ∧
      ∀ grid, tryArrange Rid 2 2 [("A", 4), ("B", -1)] 20000 = some grid →
        countGridI grid "B" = 0 ∧ countGridI grid "A" = 4 :=
  claim_C10 Rid 20000 fun _ l => List.Perm.refl l

/- ## Decimal strings and roll injectivity -/

theorem digitChar_toNat {d : Nat} (h : d < 10) : (Nat.digitChar d).toNat = 48 + d := by
  interval_cases d <;> rfl

theorem digitChar_ne_dash {d : Nat} (h : d < 10) : Nat.digitChar d ≠ '-' := by
  interval_cases d <;> decide

theorem decDigitsCore_zero (f : Nat) : decDigitsCore f 0 = [] := by
  cases f <;> rfl

theorem decDigitsCore_ne_dash : ∀ f n, ∀ c ∈ decDigitsCore f n, c ≠ '-' := by
  intro f
  induction f with
  | zero => intro n c hc; simp [decDigitsCore] at hc
  | succ f ih =>
    intro n c hc
    rw [show decDigitsCore (f + 1) n = if n = 0 then []
      else decDigitsCore f (n / 10) ++ [Nat.digitChar (n % 10)] from rfl] at hc
    by_cases hn : n = 0
    · rw [if_pos hn] at hc
      simp at hc
    · rw [if_neg hn] at hc
      rcases List.mem_append.mp hc with h | h
      · exact ih _ c h
      · rw [List.mem_singleton] at h
        subst h
        exact digitChar_ne_dash (Nat.mod_lt _ (by omega))

theorem decVal_append_digit (xs : List Char) (c : Char) :
    decVal (xs ++ [c]) = decVal xs * 10 + (c.toNat - 48) := by
  unfold decVal
  rw [List.foldl_append]
  rfl

theorem decVal_core : ∀ f n, 1 ≤ n → n ≤ f → decVal (decDigitsCore f n) = n := by
  intro f
  induction f with
  | zero => intro n h1 h2; omega
  | succ f ih =>
    intro n h1 h2
    rw [show decDigitsCore (f + 1) n = if n = 0 then []
      else decDigitsCore f (n / 10) ++ [Nat.digitChar (n % 10)] from rfl]
    rw [if_neg (by omega), decVal_append_digit,
      digitChar_toNat (Nat.mod_lt _ (by omega))]
    by_cases hq : n / 10 = 0
    · rw [hq, decDigitsCore_zero]
      have hnil : decVal [] = 0 := rfl
      rw [hnil]
      omega
    · rw [ih (n / 10) (by omega) (by omega)]
      omega

theorem decVal_natToDec (n : Nat) : decVal (natToDec n).data = n := by
  unfold natToDec
  by_cases h : n = 0
  · rw [if_pos h, h]
    rfl
  · rw [if_neg h]
    exact decVal_core n n (by omega) (le_refl n)

theorem decVal_zeros : ∀ k (t : List Char),
    decVal (List.replicate k '0' ++ t) = decVal t := by
  intro k
  induction k with
  | zero => intro t; rfl
  | succ k ih =>
    intro t
    have h0 : decVal (List.replicate (k + 1) '0' ++ t)
        = decVal (List.replicate k '0' ++ t) := rfl
    rw [h0]
    exact ih t

theorem padStart3_data (s : String) :
    (padStart3 s).data = List.replicate (3 - s.length) '0' ++ s.data := rfl

theorem decVal_pad (n : Nat) : decVal (padStart3 (natToDec n)).data = n := by
  rw [padStart3_data, decVal_zeros, decVal_natToDec]

theorem pad_ne_dash (n : Nat) : ∀ c ∈ (padStart3 (natToDec n)).data, c ≠ '-' := by
  intro c hc
  rw [padStart3_data] at hc
  rcases List.mem_append.mp hc with h | h
  · rw [List.eq_of_mem_replicate h]
    decide
  · have hn : c ∈ (natToDec n).data := h
    unfold natToDec at hn
    by_cases h0 : n = 0
    · rw [if_pos h0] at hn
      have : c = '0' := by simpa using hn
      rw [this]
      decide
    · rw [if_neg h0] at hn
      exact decDigitsCore_ne_dash n n c hn

theorem split_first_dash : ∀ (X Y A B : List Char), (∀ c ∈ X, c ≠ '-') →
    (∀ c ∈ Y, c ≠ '-') → X ++ '-' :: A = Y ++ '-' :: B → X = Y ∧ A = B := by
  intro X
  induction X with
  | nil =>
    intro Y A B _ hY h
    cases Y with
    | nil => simpa using h
    | cons y ys =>
      injection h with h1 h2
      exact absurd h1.symm (hY y (by simp))
  | cons x xs ih =>
    intro Y A B hX hY h
    cases Y with
    | nil =>
      injection h with h1 h2
      exact absurd h1 (hX x (by simp))
    | cons y ys =>
      injection h with h1 h2
      obtain ⟨hxy, hab⟩ := ih ys A B (fun c hc => hX c (by simp [hc]))
        (fun c hc => hY c (by simp [hc])) h2
      subst h1
      rw [hxy]
      exact ⟨rfl, hab⟩

theorem split_last_dash {k1 k2 p1 p2 : List Char}
    (h1 : ∀ c ∈ p1, c ≠ '-') (h2 : ∀ c ∈ p2, c ≠ '-')
    (h : k1 ++ '-' :: p1 = k2 ++ '-' :: p2) : k1 = k2 ∧ p1 = p2 := by
  have hrev := congrArg List.reverse h
  rw [List.reverse_append, List.reverse_append, List.reverse_cons,
    List.reverse_cons] at hrev
  rw [List.append_assoc, List.append_assoc, List.singleton_append,
    List.singleton_append] at hrev
  obtain ⟨ha, hb⟩ := split_first_dash p1.reverse p2.reverse k1.reverse k2.reverse
    (fun c hc => h1 c (List.mem_reverse.mp hc))
    (fun c hc => h2 c (List.mem_reverse.mp hc)) hrev
  constructor
  · exact List.reverse_injective hb
  · exact List.reverse_injective ha

theorem rollStr_data (k : String) (n : Nat) :
    (rollStr k n).data = k.data ++ '-' :: (padStart3 (natToDec n)).data := by
  unfold rollStr
  rw [String.data_append, String.data_append, List.append_assoc]
  rfl

theorem rollStr_inj {k1 k2 : String} {n1 n2 : Nat}
    (h : rollStr k1 n1 = rollStr k2 n2) : k1 = k2 ∧ n1 = n2 := by
  have hd := congrArg String.data h
  rw [rollStr_data, rollStr_data] at hd
  obtain ⟨hk, hp⟩ := split_last_dash (pad_ne_dash n1) (pad_ne_dash n2) hd
  constructor
  · cases k1
    cases k2
    exact congrArg String.mk (by simpa using hk)
  · calc n1 = decVal (padStart3 (natToDec n1)).data := (decVal_pad n1).symm
      _ = decVal (padStart3 (natToDec n2)).data := by rw [hp]
      _ = n2 := decVal_pad n2

/- ## Counter object lemmas -/

theorem getCounter_cons {p : String × Nat} {t : List (String × Nat)} {x : String} :
    getCounter (p :: t) x = if p.1 = x then p.2 else getCounter t x := by
  unfold getCounter
  by_cases h : p.1 = x
  · rw [List.find?_cons_of_pos _ (by simp [h]), if_pos h]
  · rw [List.find?_cons_of_neg _ (by simp [h]), if_neg h]

theorem getCounter_mapBump_ne {cs : List (String × Nat)} {k x : String} (h : x ≠ k) :
    getCounter (cs.map fun p => if p.1 == k then (p.1, p.2 + 1) else p) x
      = getCounter cs x := by
  induction cs with
  | nil => rfl
  | cons p t ih =>
    rw [List.map_cons]
    by_cases hp : p.1 = k
    · rw [show (if (p.1 == k) = true then (p.1, p.2 + 1) else p) = (p.1, p.2 + 1) by
        simp [hp]]
      rw [getCounter_cons, getCounter_cons]
      have hne : p.1 ≠ x := by rw [hp]; exact fun he => h he.symm
      rw [if_neg hne, if_neg hne, ih]
    · rw [show (if (p.1 == k) = true then (p.1, p.2 + 1) else p) = p by simp [hp]]
      rw [getCounter_cons, getCounter_cons, ih]

theorem getCounter_mapBump_self {cs : List (String × Nat)} {k : String}
    (h : k ∈ cs.map Prod.fst) :
    getCounter (cs.map fun p => if p.1 == k then (p.1, p.2 + 1) else p) k
      = getCounter cs k + 1 := by
  induction cs with
  | nil => simp at h
  | cons p t ih =>
    rw [List.map_cons]
    by_cases hp : p.1 = k
    · rw [show (if (p.1 == k) = true then (p.1, p.2 + 1) else p) = (p.1, p.2 + 1) by
        simp [hp]]
      rw [getCounter_cons, getCounter_cons, if_pos hp, if_pos hp]
    · rw [show (if (p.1 == k) = true then (p.1, p.2 + 1) else p) = p by simp [hp]]
      rw [getCounter_cons, getCounter_cons, if_neg hp, if_neg hp]
      apply ih
      rw [List.map_cons] at h
      rcases List.mem_cons.mp h with he | ht
      · exact absurd he.symm hp
      · exact ht

theorem getCounter_append_new {cs : List (String × Nat)} {k : String}
    (h : ¬(cs.any fun p => p.1 == k) = true) (x : String) :
    getCounter (cs ++ [(k, 1)]) x = getCounter cs x + if x = k then 1 else 0 := by
  induction cs with
  | nil =>
    rw [List.nil_append, getCounter_cons]
    by_cases hx : x = k
    · rw [if_pos hx.symm, if_pos hx]
      rfl
    · rw [if_neg fun he => hx he.symm, if_neg hx]
      rfl
  | cons p t ih =>
    rw [List.any_cons] at h
    simp only [Bool.or_eq_true, beq_iff_eq] at h
    push_neg at h
    rw [List.cons_append, getCounter_cons, getCounter_cons]
    by_cases hpx : p.1 = x
    · rw [if_pos hpx, if_pos hpx,
        if_neg (by rw [← hpx]; exact fun he => h.1 he)]
      omega
    · rw [if_neg hpx, if_neg hpx]
      exact ih (by simp [h.2])

theorem getCounter_bumpCounter (cs : List (String × Nat)) (k x : String) :
    getCounter (bumpCounter cs k) x = getCounter cs x + if x = k then 1 else 0 := by
  unfold bumpCounter
  by_cases hany : (cs.any fun p => p.1 == k) = true
  · rw [if_pos hany]
    by_cases hx : x = k
    · subst hx
      rw [if_pos rfl]
      apply getCounter_mapBump_self
      obtain ⟨p, hp, hpk⟩ := List.any_eq_true.mp hany
      rw [beq_iff_eq] at hpk
      rw [← hpk]
      exact List.mem_map_of_mem _ hp
    · rw [if_neg hx, getCounter_mapBump_ne hx]
      omega
  · rw [if_neg hany]
    exact getCounter_append_new hany x

/- ## The labeling pass against its reference description -/

theorem assignCells_spec : ∀ (l : List (Option Dept)) (cs : List (String × Nat))
    (seen : List (Option Dept)), (∀ k, getCounter cs k = occK k seen) →
    (assignCells cs l).1 = seatsSpec seen l ∧
      ∀ k, getCounter (assignCells cs l).2 k = occK k (seen ++ l) := by
  intro l
  induction l with
  | nil =>
    intro cs seen hcs
    exact ⟨rfl, fun k => by rw [List.append_nil]; exact hcs k⟩
  | cons d ds ih =>
    intro cs seen hcs
    have hstep : ∀ k, getCounter (bumpCounter cs (deptKey d)) k
        = occK k (seen ++ [d]) := by
      intro k
      rw [getCounter_bumpCounter, hcs k]
      unfold occK
      rw [List.countP_append]
      congr 1
      rw [List.countP_cons, List.countP_nil]
      by_cases h : k = deptKey d
      · rw [if_pos h, if_pos (by rw [h]; exact beq_self_eq_true _)]
      · rw [if_neg h, if_neg (by simp; exact fun he => h he.symm)]
    have hcount : getCounter (bumpCounter cs (deptKey d)) (deptKey d)
        = occK (deptKey d) seen + 1 := by
      rw [getCounter_bumpCounter, hcs, if_pos rfl]
    obtain ⟨h1, h2⟩ := ih (bumpCounter cs (deptKey d)) (seen ++ [d]) hstep
    constructor
    · show (⟨d, rollStr (deptKey d)
          (getCounter (bumpCounter cs (deptKey d)) (deptKey d))⟩ : Seat)
        :: (assignCells (bumpCounter cs (deptKey d)) ds).1 = seatsSpec seen (d :: ds)
      rw [hcount, h1]
      rfl
    · intro k
      show getCounter (assignCells (bumpCounter cs (deptKey d)) ds).2 k
        = occK k (seen ++ d :: ds)
      rw [h2 k, List.append_assoc, List.singleton_append]

theorem padTo_eq {cols : Nat} {row : List (Option Dept)} (h : row.length = cols) :
    padTo cols row = row := by
  unfold padTo
  rw [← h, List.take_length, Nat.sub_self, List.replicate_zero, List.append_nil]

theorem assignRows_spec : ∀ (g : List (List (Option Dept))) (cols : Nat)
    (cs : List (String × Nat)) (seen : List (Option Dept)),
    (∀ row ∈ g, row.length = cols) → (∀ k, getCounter cs k = occK k seen) →
    (assignRows cols cs g).1 = chunkSpec seen g := by
  intro g
  induction g with
  | nil => intro cols cs seen _ _; rfl
  | cons row rest ih =>
    intro cols cs seen hrect hcs
    have hpad : padTo cols row = row := padTo_eq (hrect row (by simp))
    obtain ⟨h1, h2⟩ := assignCells_spec row cs seen hcs
    show (assignCells cs (padTo cols row)).1
        :: (assignRows cols (assignCells cs (padTo cols row)).2 rest).1
      = seatsSpec seen row :: chunkSpec (seen ++ row) rest
    rw [hpad, h1, ih cols _ (seen ++ row) (fun r hr => hrect r (by simp [hr])) h2]

theorem seatsSpec_length : ∀ (l : List (Option Dept)) seen,
    (seatsSpec seen l).length = l.length := by
  intro l
  induction l with
  | nil => intro seen; rfl
  | cons d ds ih =>
    intro seen
    show (seatsSpec (seen ++ [d]) ds).length + 1 = ds.length + 1
    rw [ih]

theorem chunkSpec_length : ∀ (g : List (List (Option Dept))) seen,
    (chunkSpec seen g).length = g.length := by
  intro g
  induction g with
  | nil => intro seen; rfl
  | cons row rest ih =>
    intro seen
    show (chunkSpec (seen ++ row) rest).length + 1 = rest.length + 1
    rw [ih]

theorem chunkSpec_row_len : ∀ (g : List (List (Option Dept))) seen (cols : Nat),
    (∀ row ∈ g, row.length = cols) →
    ∀ srow ∈ chunkSpec seen g, srow.length = cols := by
  intro g
  induction g with
  | nil => intro seen cols _ srow hs; simp [chunkSpec] at hs
  | cons row rest ih =>
    intro seen cols hrect srow hs
    rcases List.mem_cons.mp hs with rfl | hs2
    · rw [seatsSpec_length]
      exact hrect row (by simp)
    · exact ih (seen ++ row) cols (fun r hr => hrect r (by simp [hr])) srow hs2

theorem seatsSpec_getD : ∀ (l : List (Option Dept)) (seen : List (Option Dept))
    (c : Nat), c < l.length →
    (seatsSpec seen l).getD c ⟨none, ""⟩ =
      ⟨l.getD c none, rollStr (deptKey (l.getD c none))
        (occK (deptKey (l.getD c none)) (seen ++ l.take c) + 1)⟩ := by
  intro l
  induction l with
  | nil => intro seen c h; simp at h
  | cons d ds ih =>
    intro seen c hc
    cases c with
    | zero =>
      show (⟨d, rollStr (deptKey d) (occK (deptKey d) seen + 1)⟩ : Seat)
        = ⟨d, rollStr (deptKey d) (occK (deptKey d) (seen ++ (d :: ds).take 0) + 1)⟩
      rw [List.take_zero, List.append_nil]
    | succ c =>
      have hc2 : c < ds.length := by simpa using hc
      show (seatsSpec (seen ++ [d]) ds).getD c ⟨none, ""⟩ = _
      rw [ih (seen ++ [d]) c hc2]
      show (⟨ds.getD c none, rollStr (deptKey (ds.getD c none))
          (occK (deptKey (ds.getD c none)) ((seen ++ [d]) ++ ds.take c) + 1)⟩ : Seat)
        = ⟨ds.getD c none, rollStr (deptKey (ds.getD c none))
          (occK (deptKey (ds.getD c none)) (seen ++ d :: ds.take c) + 1)⟩
      rw [List.append_assoc, List.singleton_append]

theorem chunkSpec_getSeat : ∀ (g : List (List (Option Dept)))
    (seen : List (Option Dept)) (r c : Nat),
    r < g.length → c < (g.getD r []).length →
    getSeat (chunkSpec seen g) r c =
      ⟨(g.getD r []).getD c none, rollStr (deptKey ((g.getD r []).getD c none))
        (occK (deptKey ((g.getD r []).getD c none))
          (seen ++ ((g.take r).flatten ++ (g.getD r []).take c)) + 1)⟩ := by
  intro g
  induction g with
  | nil => intro seen r c h; simp at h
  | cons row rest ih =>
    intro seen r c hr hc
    cases r with
    | zero =>
      show (seatsSpec seen row).getD c ⟨none, ""⟩ = _
      rw [seatsSpec_getD row seen c hc]
      show (⟨row.getD c none, rollStr (deptKey (row.getD c none))
          (occK (deptKey (row.getD c none)) (seen ++ row.take c) + 1)⟩ : Seat) = _
      rw [show (((row :: rest).take 0).flatten : List (Option Dept)) = [] from rfl]
      rw [List.nil_append]
      rfl
    | succ r =>
      have hr2 : r < rest.length := by simpa using hr
      show getSeat (chunkSpec (seen ++ row) rest) r c = _
      rw [ih (seen ++ row) r c hr2 hc]
      rw [show (((row :: rest).take (r + 1)).flatten : List (Option Dept))
        = row ++ (rest.take r).flatten from rfl]
      simp only [List.append_assoc]
      rfl

/- ## Row-major prefixes -/

theorem take_split {α : Type _} (row : List α) (dflt : α) {c c2 : Nat}
    (h1 : c < c2) (h2 : c2 ≤ row.length) :
    ∃ mid, row.take c2 = row.take c ++ row.getD c dflt :: mid := by
  have hc : c < row.length := by omega
  have e1 : row.take c2 = row.take (c + 1) ++ (row.drop (c + 1)).take (c2 - (c + 1)) := by
    have h := List.take_add row (c + 1) (c2 - (c + 1))
    rw [show c + 1 + (c2 - (c + 1)) = c2 from by omega] at h
    exact h
  have e2 : row.take (c + 1) = row.take c ++ [row.getD c dflt] := by
    rw [List.take_succ]
    congr 1
    rw [List.getElem?_eq_getElem hc, getD_eq_getElem_of_lt hc]
    rfl
  refine ⟨(row.drop (c + 1)).take (c2 - (c + 1)), ?_⟩
  rw [e1, e2, List.append_assoc, List.singleton_append]

theorem row_decomp {α : Type _} (row : List α) (dflt : α) {c : Nat}
    (hc : c < row.length) :
    row = row.take c ++ row.getD c dflt :: row.drop (c + 1) := by
  have e2 : row.take (c + 1) = row.take c ++ [row.getD c dflt] := by
    rw [List.take_succ]
    congr 1
    rw [List.getElem?_eq_getElem hc, getD_eq_getElem_of_lt hc]
    rfl
  conv_lhs => rw [← List.take_append_drop (c + 1) row]
  rw [e2, List.append_assoc, List.singleton_append]

theorem seen_prefix {g : List (List (Option Dept))} {cols r c r2 c2 : Nat}
    (hrect : ∀ row ∈ g, row.length = cols)
    (hr : r < g.length) (hr2 : r2 < g.length) (hc : c < cols) (hc2 : c2 ≤ cols)
    (hlex : r < r2 ∨ (r = r2 ∧ c < c2)) :
    ∃ mid, (g.take r2).flatten ++ (g.getD r2 []).take c2
      = ((g.take r).flatten ++ (g.getD r []).take c) ++ getCell g r c :: mid := by
  have hrowmem : g.getD r [] ∈ g := by
    rw [getD_eq_getElem_of_lt hr]
    exact List.getElem_mem hr
  have hrowlen : (g.getD r []).length = cols := hrect _ hrowmem
  rcases hlex with hlt | ⟨rfl, hclt⟩
  · -- earlier row
    have e1 : g.take r2 = g.take (r + 1) ++ (g.drop (r + 1)).take (r2 - (r + 1)) := by
      have h := List.take_add g (r + 1) (r2 - (r + 1))
      rw [show r + 1 + (r2 - (r + 1)) = r2 from by omega] at h
      exact h
    have e2 : g.take (r + 1) = g.take r ++ [g.getD r []] := by
      rw [List.take_succ]
      congr 1
      rw [List.getElem?_eq_getElem hr, getD_eq_getElem_of_lt hr]
      rfl
    have e3 : g.getD r [] = (g.getD r []).take c
        ++ getCell g r c :: (g.getD r []).drop (c + 1) :=
      row_decomp (g.getD r []) none (by omega)
    refine ⟨(g.getD r []).drop (c + 1)
      ++ ((g.drop (r + 1)).take (r2 - (r + 1))).flatten
      ++ (g.getD r2 []).take c2, ?_⟩
    rw [e1, e2]
    rw [List.flatten_append, List.flatten_append]
    rw [show ([g.getD r []] : List (List (Option Dept))).flatten
      = g.getD r [] ++ [] from rfl]
    conv_lhs => rw [e3]
    simp only [List.append_assoc, List.append_nil, List.cons_append, List.nil_append]
  · -- same row, earlier column
    obtain ⟨mid, hmid⟩ := take_split (g.getD r []) none hclt (by omega)
    refine ⟨mid, ?_⟩
    rw [hmid]
    simp only [List.append_assoc]
    rfl

/- ## Flat indexing -/

theorem flatten_take_eq {cols : Nat} :
    ∀ (g : List (List (Option Dept))), (∀ row ∈ g, row.length = cols) →
    ∀ r c, r < g.length → c ≤ cols →
      g.flatten.take (r * cols + c) = (g.take r).flatten ++ (g.getD r []).take c := by
  intro g
  induction g with
  | nil => intro _ r c h _; simp at h
  | cons row rest ih =>
    intro hrect r c hr hc
    cases r with
    | zero =>
      rw [show 0 * cols + c = c from by omega]
      rw [show ((row :: rest).flatten : List (Option Dept)) = row ++ rest.flatten
        from rfl]
      rw [List.take_append_of_le_length (by rw [hrect row (by simp)]; exact hc)]
      rfl
    | succ r =>
      rw [show (r + 1) * cols + c = row.length + (r * cols + c) from by
        rw [hrect row (by simp)]; ring]
      rw [show ((row :: rest).flatten : List (Option Dept)) = row ++ rest.flatten
        from rfl]
      have hsplit := List.take_add (row ++ rest.flatten) row.length (r * cols + c)
      rw [hsplit, List.take_left, List.drop_left]
      rw [ih (fun q hq => hrect q (by simp [hq])) r c (by simpa using hr) hc]
      rw [show (row :: rest).take (r + 1) = row :: rest.take r from rfl,
        List.flatten_cons,
        show ((row :: rest).getD (r + 1) [] : List (Option Dept))
          = rest.getD r [] from rfl,
        List.append_assoc]

theorem flatten_len_rect {cols : Nat} {g : List (List (Option Dept))}
    (hrect : ∀ row ∈ g, row.length = cols) :
    g.flatten.length = g.length * cols :=
  flatten_length ⟨rfl, hrect⟩

theorem countP_take_exists {α : Type _} (p : α → Bool) :
    ∀ (F : List α) (j : Nat), 1 ≤ j → j ≤ F.countP p →
      ∃ i, ∃ h : i < F.length, p (F.get ⟨i, h⟩) = true ∧
        (F.take (i + 1)).countP p = j := by
  intro F
  induction F with
  | nil => intro j h1 h2; simp at h2; omega
  | cons x F ih =>
    intro j h1 h2
    by_cases hx : p x
    · by_cases hj : j = 1
      · refine ⟨0, by simp, by simpa using hx, ?_⟩
        subst hj
        rw [show (x :: F).take 1 = [x] from rfl]
        simp [hx]
      · have h2b : j - 1 ≤ F.countP p := by
          rw [List.countP_cons, if_pos hx] at h2
          omega
        obtain ⟨i, hi, hpi, hcnt⟩ := ih (j - 1) (by omega) h2b
        refine ⟨i + 1, by simp; omega, by simpa using hpi, ?_⟩
        rw [show (x :: F).take (i + 1 + 1) = x :: F.take (i + 1) from rfl]
        rw [List.countP_cons, if_pos hx, hcnt]
        omega
    · have h2b : j ≤ F.countP p := by
        rw [List.countP_cons, if_neg hx] at h2
        omega
      obtain ⟨i, hi, hpi, hcnt⟩ := ih j h1 h2b
      refine ⟨i + 1, by simp; omega, by simpa using hpi, ?_⟩
      rw [show (x :: F).take (i + 1 + 1) = x :: F.take (i + 1) from rfl]
      rw [List.countP_cons, if_neg hx, hcnt]
      omega

theorem take_succ_getD {α : Type _} (row : List α) (dflt : α) {c : Nat}
    (hc : c < row.length) :
    row.take (c + 1) = row.take c ++ [row.getD c dflt] := by
  rw [List.take_succ]
  congr 1
  rw [List.getElem?_eq_getElem hc, getD_eq_getElem_of_lt hc]
  rfl

theorem occK_eq_countP {k : String} : ∀ l : List (Option Dept),
    (∀ x ∈ l, x ≠ none) → occK k l = l.countP fun y => y == (some k : Option Dept) := by
  intro l
  induction l with
  | nil => intro _; rfl
  | cons x t ih =>
    intro h
    unfold occK at *
    rw [List.countP_cons, List.countP_cons, ih fun y hy => h y (by simp [hy])]
    congr 1
    rcases x with _ | m
    · exact absurd rfl (h none (by simp))
    · rfl

/- ## Claim C6 -/

/-- C6: for every solved (rectangular, fully assigned, non-empty)
CategoryGrid, `assignRollsToGrid` returns a SeatGrid of identical dimensions
in which the identifier of each cell is its category name, a dash, and the
1-based count of cells of that category at or before it in row-major order,
zero-padded to 3 digits; consequently all identifiers are pairwise distinct
and each category's identifiers form a contiguous 1-based sequence with no
gaps. -/
theorem claim_C6 (grid : CGrid) (cols : Nat)
    (hne : grid ≠ []) (hrect : ∀ row ∈ grid, row.length = cols)
    (hsolved : ∀ r c, r < grid.length → c < cols → getCell grid r c ≠ none) :
    ∃ sg, assignRollsToGrid grid = some sg ∧
      sg.length = grid.length ∧ (∀ srow ∈ sg, srow.length = cols) ∧
      (∀ r c k, r < grid.length → c < cols → getCell grid r c = some k →
        getSeat sg r c = ⟨some k, rollStr k
          (((grid.take r).flatten ++ (grid.getD r []).take (c + 1)).countP
            fun y => y == (some k : Option Dept))⟩) ∧
      (∀ r c r2 c2, r < grid.length → c < cols → r2 < grid.length → c2 < cols →
        (r, c) ≠ (r2, c2) → (getSeat sg r c).roll ≠ (getSeat sg r2 c2).roll) ∧
      (∀ k j, 1 ≤ j → j ≤ grid.flatten.countP (fun y => y == (some k : Option Dept)) →
        ∃ r c, r < grid.length ∧ c < cols ∧ getSeat sg r c = ⟨some k, rollStr k j⟩) := by
  have hprefix_some : ∀ r c, r < grid.length → c ≤ cols →
      ∀ x ∈ (grid.take r).flatten ++ (grid.getD r []).take c, x ≠ none := by
    intro r c hr _ x hx
    have hxflat : x ∈ grid.flatten := by
      rcases List.mem_append.mp hx with h | h
      · rw [List.mem_flatten] at h ⊢
        obtain ⟨row, hrow, hxr⟩ := h
        exact ⟨row, List.mem_of_mem_take hrow, hxr⟩
      · rw [List.mem_flatten]
        refine ⟨grid.getD r [], ?_, List.mem_of_mem_take h⟩
        rw [getD_eq_getElem_of_lt hr]
        exact List.getElem_mem hr
    exact flatten_all_some ⟨rfl, hrect⟩ hsolved x hxflat
  have hrowlen : ∀ {r : Nat}, r < grid.length → (grid.getD r []).length = cols := by
    intro r hr
    refine hrect _ ?_
    rw [getD_eq_getElem_of_lt hr]
    exact List.getElem_mem hr
  -- the produced seat grid is the reference chunkSpec
  have hassign : assignRollsToGrid grid = some (chunkSpec [] grid) := by
    rcases grid with _ | ⟨g0, rest⟩
    · exact absurd rfl hne
    · show some (assignRows g0.length [] (g0 :: rest)).1 = _
      rw [show g0.length = cols from hrect g0 (by simp)]
      rw [assignRows_spec (g0 :: rest) cols [] [] hrect fun k => rfl]
  -- the seat at an in-bounds cell
  have hseat : ∀ r c, r < grid.length → c < cols →
      getSeat (chunkSpec [] grid) r c =
        ⟨getCell grid r c, rollStr (deptKey (getCell grid r c))
          (occK (deptKey (getCell grid r c))
            ((grid.take r).flatten ++ (grid.getD r []).take c) + 1)⟩ := by
    intro r c hr hc
    rw [chunkSpec_getSeat grid [] r c hr (by rw [hrowlen hr]; exact hc)]
    rw [List.nil_append]
    rfl
  have hsome : ∀ r c, r < grid.length → c < cols → ∃ k, getCell grid r c = some k := by
    intro r c hr hc
    rcases hcell : getCell grid r c with _ | k
    · exact absurd hcell (hsolved r c hr hc)
    · exact ⟨k, rfl⟩
  -- the distinctness kernel, for lexicographically ordered cell pairs
  have hkey : ∀ r c r2 c2, r < grid.length → c < cols → r2 < grid.length →
      c2 < cols → (r < r2 ∨ (r = r2 ∧ c < c2)) →
      (getSeat (chunkSpec [] grid) r c).roll
        ≠ (getSeat (chunkSpec [] grid) r2 c2).roll := by
    intro r c r2 c2 hr hc hr2 hc2 hlex
    obtain ⟨k1, hk1⟩ := hsome r c hr hc
    obtain ⟨k2, hk2⟩ := hsome r2 c2 hr2 hc2
    rw [hseat r c hr hc, hseat r2 c2 hr2 hc2, hk1, hk2]
    show rollStr k1 _ ≠ rollStr k2 _
    intro heq
    obtain ⟨hkk, hnn⟩ := rollStr_inj heq
    subst hkk
    obtain ⟨mid, hmid⟩ := seen_prefix hrect hr hr2 hc (le_of_lt hc2) hlex
    rw [hmid, hk1] at hnn
    unfold occK at hnn
    simp only [List.countP_append, List.countP_cons] at hnn
    have hone : (if ((deptKey (some k1) == deptKey (some k1)) : Bool) = true
        then 1 else 0) = 1 := by
      simp
    omega
  refine ⟨chunkSpec [] grid, hassign, chunkSpec_length grid [],
    chunkSpec_row_len grid [] cols hrect, ?_, ?_, ?_⟩
  · -- characterization
    intro r c k hr hc hcell
    rw [hseat r c hr hc, hcell]
    have hdecomp : (grid.getD r []).take (c + 1)
        = (grid.getD r []).take c ++ [getCell grid r c] :=
      take_succ_getD (grid.getD r []) none (by rw [hrowlen hr]; exact hc)
    have harg : occK k ((grid.take r).flatten ++ (grid.getD r []).take c) + 1
        = ((grid.take r).flatten ++ (grid.getD r []).take (c + 1)).countP
            fun y => y == (some k : Option Dept) := by
      rw [hdecomp, hcell]
      rw [occK_eq_countP _ (hprefix_some r c hr (le_of_lt hc))]
      rw [← List.append_assoc]
      simp only [List.countP_append]
      have h1 : (([some k] : List (Option Dept)).countP fun y => y == some k) = 1 := by
        simp
      omega
    show (⟨some k, rollStr k (occK k ((grid.take r).flatten
        ++ (grid.getD r []).take c) + 1)⟩ : Seat) = _
    rw [harg]
  · -- pairwise distinct identifiers
    intro r c r2 c2 hr hc hr2 hc2 hnepair
    rcases Nat.lt_trichotomy r r2 with hlt | heq | hgt
    · exact hkey r c r2 c2 hr hc hr2 hc2 (Or.inl hlt)
    · subst heq
      rcases Nat.lt_trichotomy c c2 with hlt | heq2 | hgt
      · exact hkey r c r c2 hr hc hr2 hc2 (Or.inr ⟨rfl, hlt⟩)
      · exact absurd (by rw [heq2]) hnepair
      · exact (hkey r c2 r c hr2 hc2 hr hc (Or.inr ⟨rfl, hgt⟩)).symm
    · exact (hkey r2 c2 r c hr2 hc2 hr hc (Or.inl hgt)).symm
  · -- contiguity
    intro k j hj1 hj2
    obtain ⟨i, hiF, hpi, hcnt⟩ := countP_take_exists _ grid.flatten j hj1 hj2
    have hlen : grid.flatten.length = grid.length * cols := flatten_len_rect hrect
    have hcpos : 0 < cols := by
      rcases Nat.eq_zero_or_pos cols with h0 | h
      · rw [h0, Nat.mul_zero] at hlen
        omega
      · exact h
    set r := i / cols with hrdef
    set c := i % cols with hcdef
    have hrlt : r < grid.length := by
      rw [hrdef]
      rw [hlen] at hiF
      exact Nat.div_lt_of_lt_mul (by rw [Nat.mul_comm]; exact hiF)
    have hclt : c < cols := Nat.mod_lt _ hcpos
    have hieq : r * cols + c = i := by
      rw [hrdef, hcdef, Nat.mul_comm]
      exact Nat.div_add_mod i cols
    have htake0 : grid.flatten.take i
        = (grid.take r).flatten ++ (grid.getD r []).take c := by
      rw [← hieq]
      exact flatten_take_eq grid hrect r c hrlt (le_of_lt hclt)
    have htake1 : grid.flatten.take (i + 1)
        = (grid.take r).flatten ++ (grid.getD r []).take (c + 1) := by
      rw [← hieq]
      exact flatten_take_eq grid hrect r (c + 1) hrlt hclt
    have hdecomp : (grid.getD r []).take (c + 1)
        = (grid.getD r []).take c ++ [getCell grid r c] :=
      take_succ_getD (grid.getD r []) none (by rw [hrowlen hrlt]; exact hclt)
    have hA : grid.flatten.take (i + 1)
        = grid.flatten.take i ++ [grid.flatten.getD i none] :=
      take_succ_getD grid.flatten none hiF
    rw [htake1, hdecomp, ← List.append_assoc, ← htake0] at hA
    have hval : getCell grid r c = grid.flatten.getD i none := by
      have h2 := List.append_cancel_left hA
      simpa using h2
    have hcellk : getCell grid r c = some k := by
      have h3 := hpi
      rw [show grid.flatten.get ⟨i, hiF⟩ = grid.flatten.getD i none from by
        rw [getD_eq_getElem_of_lt hiF]
        rfl] at h3
      rw [← hval] at h3
      simpa using h3
    refine ⟨r, c, hrlt, hclt, ?_⟩
    rw [hseat r c hrlt hclt, hcellk]
    have hocc : occK k ((grid.take r).flatten ++ (grid.getD r []).take c) + 1 = j := by
      rw [occK_eq_countP _ (hprefix_some r c hrlt (le_of_lt hclt))]
      rw [← htake0]
      have h3 : grid.flatten.take (i + 1) = grid.flatten.take i ++ [some k] := by
        rw [htake1, hdecomp, hcellk, ← List.append_assoc, ← htake0]
      rw [h3, List.countP_append] at hcnt
      have h4 : (([some k] : List (Option Dept)).countP fun y => y == some k) = 1 := by
        simp
      omega
    show (⟨some k, rollStr k (occK k ((grid.take r).flatten
        ++ (grid.getD r []).take c) + 1)⟩ : Seat) = ⟨some k, rollStr k j⟩
    rw [hocc]

/-- Witness for C6 at the solved 2×2 grid A,B / B,A. -/
theorem claim_C6_witness :
    ([[some "A", some "B"], [some "B", some "A"]] : CGrid) ≠ [] ∧
    (∀ row ∈ ([[some "A", some "B"], [some "B", some "A"]] : CGrid),
      row.length = 2) ∧
    (∀ r, r < 2 → ∀ c, c < 2 →
      getCell [[some "A", some "B"], [some "B", some "A"]] r c ≠ none) ∧
    ∃ sg, assignRollsToGrid [[some "A", some "B"], [some "B", some "A"]] = some sg ∧
      sg.length = 2 ∧ (∀ srow ∈ sg, srow.length = 2) ∧
      (∀ r c k, r < 2 → c < 2 →
        getCell [[some "A", some "B"], [some "B", some "A"]] r c = some k →
        getSeat sg r c = ⟨some k, rollStr k
          (((([[some "A", some "B"], [some "B", some "A"]] : CGrid).take r).flatten ++
            (([[some "A", some "B"], [some "B", some "A"]] : CGrid).getD r []).take
              (c + 1)).countP
            fun y => y == (some k : Option Dept))⟩) ∧
      (∀ r c r2 c2, r < 2 → c < 2 → r2 < 2 → c2 < 2 → (r, c) ≠ (r2, c2) →
        (getSeat sg r c).roll ≠ (getSeat sg r2 c2).roll) ∧
      (∀ k j, 1 ≤ j →
        j ≤ ([[some "A", some "B"], [some "B", some "A"]] : CGrid).flatten.countP
          (fun y => y == (some k : Option Dept)) →
        ∃ r c, r < 2 ∧ c < 2 ∧ getSeat sg r c = ⟨some k, rollStr k j⟩) := by
  refine ⟨by decide, by decide, ?_, ?_⟩
  · decide
  · have h3 : ∀ r, r < 2 → ∀ c, c < 2 →
        getCell [[some "A", some "B"], [some "B", some "A"]] r c ≠ none := by
      decide
    exact claim_C6 [[some "A", some "B"], [some "B", some "A"]] 2
      (by decide) (by decide) (fun r c hr hc => h3 r hr c hc)

/- ## Claim C5 -/

/-- Counterexample to C5: a grid containing an unassigned (null) cell is NOT
rejected — `assignRollsToGrid` happily labels the null cell with the roll
string "null-001" (the JS template literal stringifies the `null` value) and
returns a seat grid. -/
theorem claim_C5_counterexample :
    assignRollsToGrid [[none]] = some [[⟨none, "null-001"⟩]] ∧
      assignRollsToGrid [[none]] ≠ none := by
  constructor
  · rfl
  · intro h
    exact Option.noConfusion ((rfl :
      assignRollsToGrid [[none]] = some [[⟨none, "null-001"⟩]]).symm.trans h)

/-- C5 (amended): `assignRollsToGrid` fails exactly on the empty grid (the
source throws a TypeError reading `grid[0].length`); on EVERY non-empty grid,
including grids with unassigned (null) cells, it succeeds and returns a seat
grid — there is no InvalidGrid rejection of null cells. -/
theorem claim_C5 :
    assignRollsToGrid ([] : CGrid) = none ∧
      ∀ g : CGrid, g ≠ [] → (assignRollsToGrid g).isSome = true := by
  refine ⟨rfl, ?_⟩
  intro g hg
  rcases g with _ | ⟨g0, rest⟩
  · exact absurd rfl hg
  · rfl

/-- Witness for C5 (amended) at the single-null-cell grid. -/
theorem claim_C5_witness :
    assignRollsToGrid ([] : CGrid) = none ∧
      ([[none]] : CGrid) ≠ [] ∧ (assignRollsToGrid [[none]]).isSome = true :=
  ⟨claim_C5.1, by decide, claim_C5.2 [[none]] (by decide)⟩

/- ## Claim C7 -/

/-- C7: the labeler is deterministic — it takes no randomness.  Whenever two
solver runs (with arbitrary, possibly different randomness oracles) produce
the same solved CategoryGrid, `assignRollsToGrid` produces identical
SeatGrids on them. -/
theorem claim_C7 (R1 R2 : Nat → List Dept → List Dept) (rows cols al : Nat)
    (cm : List (Dept × Int)) (g1 g2 : CGrid)
    (h1 : tryArrange R1 rows cols cm al = some g1)
    (h2 : tryArrange R2 rows cols cm al = some g2)
    (heq : g1 = g2) :
    assignRollsToGrid g1 = assignRollsToGrid g2 := by
  rw [heq]

/-- Witness for C7 on the 1×2 instance solved twice. -/
theorem claim_C7_witness :
    assignRollsToGrid [[some "A", some "B"]]
      = assignRollsToGrid [[some "A", some "B"]] :=
  claim_C7 Rid Rid 1 2 20000 [("A", 1), ("B", 1)]
    [[some "A", some "B"]] [[some "A", some "B"]]
    (by decide) (by decide) rfl

/- ## Claim C4 -/

/-- On a non-empty rectangular grid the labeler succeeds and the seat grid
has the same dimensions. -/
theorem assignRollsToGrid_shape (g : CGrid) (cols : Nat) (hne : g ≠ [])
    (hrect : ∀ row ∈ g, row.length = cols) :
    ∃ sg, assignRollsToGrid g = some sg ∧ sg.length = g.length ∧
      ∀ srow ∈ sg, srow.length = cols := by
  rcases g with _ | ⟨g0, rest⟩
  · exact absurd rfl hne
  · refine ⟨chunkSpec [] (g0 :: rest), ?_, ?_, ?_⟩
    · show some (assignRows g0.length [] (g0 :: rest)).1 = _
      rw [show g0.length = cols from hrect g0 (by simp)]
      rw [assignRows_spec (g0 :: rest) cols [] [] hrect fun k => rfl]
    · exact chunkSpec_length (g0 :: rest) []
    · exact chunkSpec_row_len (g0 :: rest) [] cols hrect

/-- A successful retry loop means one of the five solver runs succeeded
(with the caller's attempt limit 30000). -/
theorem runTries_some {Rs : List (Nat → List Dept → List Dept)}
    {rows cols : Nat} {counts : List (Dept × Int)} {g : CGrid}
    (h : runTries Rs rows cols counts = some g) :
    ∃ R ∈ Rs, tryArrange R rows cols counts 30000 = some g := by
  induction Rs with
  | nil => exact absurd h (by intro h0; exact Option.noConfusion h0)
  | cons R rest ih =>
    have hstep : runTries (R :: rest) rows cols counts
        = match tryArrange R rows cols counts 30000 with
          | some g2 => some g2
          | none => runTries rest rows cols counts := rfl
    rcases hR : tryArrange R rows cols counts 30000 with _ | g2
    · rw [hstep, hR] at h
      obtain ⟨R2, hmem, hok⟩ := ih h
      exact ⟨R2, List.mem_cons_of_mem _ hmem, hok⟩
    · rw [hstep, hR] at h
      injection h with h2
      exact ⟨R, by simp, by rw [hR, h2]⟩

/-- C4: under faithful randomness oracles and a JS-object countsMap, the
caller `attemptAndRender` always produces an observable outcome (never a
crash): the CountMismatch alert exactly when the count sum misses
rows*cols, the SearchExhausted alert exactly when the sum matches but all
five solver retries fail, and otherwise a rendered complete rows×cols seat
grid — the two failure outcomes being distinct values of `RenderOutcome`. -/
theorem claim_C4 (Rs : List (Nat → List Dept → List Dept)) (rows cols : Nat)
    (counts : List (Dept × Int)) (hrows : 0 < rows)
    (hRs : ∀ R ∈ Rs, ∀ n l, (R n l).Perm l)
    (hcm : (counts.map Prod.fst).Nodup) :
    (attemptAndRender Rs rows cols counts ≠ none) ∧
    (attemptAndRender Rs rows cols counts = some .countMismatch
      ↔ totalCount counts ≠ (rows * cols : Int)) ∧
    (attemptAndRender Rs rows cols counts = some .searchExhausted
      ↔ totalCount counts = (rows * cols : Int)
          ∧ runTries Rs rows cols counts = none) ∧
    (∀ sg, attemptAndRender Rs rows cols counts = some (.seating sg) →
      sg.length = rows ∧ ∀ srow ∈ sg, srow.length = cols) := by
  by_cases hsum : totalCount counts ≠ (rows * cols : Int)
  · have hval : attemptAndRender Rs rows cols counts = some .countMismatch := by
      unfold attemptAndRender
      rw [if_pos hsum]
    rw [hval]
    refine ⟨by intro h0; exact Option.noConfusion h0, ?_, ?_, ?_⟩
    · exact ⟨fun _ => hsum, fun _ => rfl⟩
    · constructor
      · intro h0
        injection h0 with h1
        exact absurd h1 (by intro h2; exact RenderOutcome.noConfusion h2)
      · rintro ⟨h1, _⟩
        exact absurd h1 hsum
    · intro sg h0
      injection h0 with h1
      exact absurd h1 (by intro h2; exact RenderOutcome.noConfusion h2)
  · have hs : totalCount counts = (rows * cols : Int) := not_ne_iff.mp hsum
    rcases hrt : runTries Rs rows cols counts with _ | g
    · have hval : attemptAndRender Rs rows cols counts = some .searchExhausted := by
        unfold attemptAndRender
        rw [if_neg hsum, hrt]
      rw [hval]
      refine ⟨by intro h0; exact Option.noConfusion h0, ?_, ?_, ?_⟩
      · constructor
        · intro h0
          injection h0 with h1
          exact absurd h1 (by intro h2; exact RenderOutcome.noConfusion h2)
        · intro h0
          exact absurd hs h0
      · exact ⟨fun _ => ⟨hs, rfl⟩, fun _ => rfl⟩
      · intro sg h0
        injection h0 with h1
        exact absurd h1 (by intro h2; exact RenderOutcome.noConfusion h2)
    · obtain ⟨R, hmem, hok⟩ := runTries_some hrt
      obtain ⟨⟨hlen, hrect⟩, _, _, _⟩ := tryArrange_success (hRs R hmem) hcm hok
      have hne : g ≠ [] := by
        intro h0
        rw [h0] at hlen
        simp at hlen
        omega
      obtain ⟨sg, hsg, hsglen, hsgrow⟩ := assignRollsToGrid_shape g cols hne hrect
      have hval : attemptAndRender Rs rows cols counts
          = some (.seating sg) := by
        unfold attemptAndRender
        rw [if_neg hsum, hrt]
        show (assignRollsToGrid g).map RenderOutcome.seating = _
        rw [hsg]
        rfl
      rw [hval]
      refine ⟨by intro h0; exact Option.noConfusion h0, ?_, ?_, ?_⟩
      · constructor
        · intro h0
          injection h0 with h1
          exact absurd h1 (by intro h2; exact RenderOutcome.noConfusion h2)
        · intro h0
          exact absurd hs h0
      · constructor
        · intro h0
          injection h0 with h1
          exact absurd h1 (by intro h2; exact RenderOutcome.noConfusion h2)
        · rintro ⟨_, hnone⟩
          exact Option.noConfusion hnone
      · intro sg2 h0
        injection h0 with h1
        injection h1 with h2
        rw [← h2]
        exact ⟨by rw [hsglen, hlen], hsgrow⟩

/-- Witness for C4 on the solvable 1×2 instance with one oracle. -/
theorem claim_C4_witness :
    attemptAndRender [Rid] 1 2 [("A", 1), ("B", 1)] ≠ none :=
  (claim_C4 [Rid] 1 2 [("A", 1), ("B", 1)] (by decide)
    (by
      intro R hR n l
      rw [List.mem_singleton] at hR
      subst hR
      exact List.Perm.refl l)
    (by decide)).1

end Seating
